import Mathlib

/-!
Verification development for the array-builder core of blaze
(src/native-engine/datafusion-ext-commons/src/array_builder.rs).

The Rust source is shallowly embedded: arrow arrays become the inductive
`ArrayData`, arrow builders become `Builder`, the Rust `DataType` enum
becomes `DataType`, and the three public operations `builder_extend`,
`builder_append_null` and `new_array_builder` together with the builder
`finish` operation become Lean functions over these types.  Machine
integers that are only ever copied (primitive payloads, decimal unscaled
values, float bit patterns) are modelled as `Int`; byte strings as
`List Nat`.  A Rust panic (failed downcast, out-of-range index access,
`unimplemented!`) is modelled as an error value.

Notes on fidelity:
* timestamp time zones are dropped from the model: the source matches
  `Timestamp(unit, _)` everywhere and never reads the zone;
* recursion in `builder_extend` descends through strictly smaller arrays;
  the embedding makes this explicit with a fuel argument bounded by the
  nesting depth of the source array, so that the function is structurally
  recursive and computable by the kernel; the wrapper supplies ample fuel
  and the totality theorems show the fuel is never exhausted.
-/

namespace BlazeArrayBuilder

/-- Arrow time units. -/
inductive TimeUnit where
  | second
  | millisecond
  | microsecond
  | nanosecond
deriving DecidableEq

/-- Physical kinds of the fixed-width primitive builders and arrays used by
the source (one per `append_simple!` instantiation).  The payload of all of
them is only copied by the source, so it is modelled uniformly as `Int`
(for floats this is the bit pattern). -/
inductive PrimKind where
  | boolean
  | int8
  | int16
  | int32
  | int64
  | uint8
  | uint16
  | uint32
  | uint64
  | float32
  | float64
  | date32
  | date64
  | timestampSecond
  | timestampMillisecond
  | timestampMicrosecond
  | timestampNanosecond
  | time32Second
  | time32Millisecond
  | time64Microsecond
  | time64Nanosecond
deriving DecidableEq

/-- The two physical decimal widths (`Decimal128`, `Decimal256`). -/
inductive DecWidth where
  | d128
  | d256
deriving DecidableEq

/-- Dictionary key types (the eight integer types accepted by the source). -/
inductive DictKey where
  | i8
  | i16
  | i32
  | i64
  | u8
  | u16
  | u32
  | u64
deriving DecidableEq

/-- The arrow `DataType` variants relevant to the source, plus `float16`
and `duration` as representatives of descriptors outside the supported
closed set.  Timestamp zones are dropped (never consulted by the source).
Struct fields are name and type pairs; field nullability is never
consulted by the source and is dropped. -/
inductive DataType where
  | null
  | boolean
  | int8
  | int16
  | int32
  | int64
  | uint8
  | uint16
  | uint32
  | uint64
  | float16
  | float32
  | float64
  | date32
  | date64
  | timestamp (u : TimeUnit)
  | time32 (u : TimeUnit)
  | time64 (u : TimeUnit)
  | duration (u : TimeUnit)
  | binary
  | largeBinary
  | utf8
  | largeUtf8
  | decimal128 (precision : Nat) (scale : Int)
  | decimal256 (precision : Nat) (scale : Int)
  | dictionary (key : DataType) (value : DataType)
  | list (elem : DataType)
  | struct (fields : List (String × DataType))

mutual
/-- Boolean structural equality on `DataType` (used where the source
compares or matches on data types). -/
def dtEq : DataType → DataType → Bool
  | .null, .null => true
  | .boolean, .boolean => true
  | .int8, .int8 => true
  | .int16, .int16 => true
  | .int32, .int32 => true
  | .int64, .int64 => true
  | .uint8, .uint8 => true
  | .uint16, .uint16 => true
  | .uint32, .uint32 => true
  | .uint64, .uint64 => true
  | .float16, .float16 => true
  | .float32, .float32 => true
  | .float64, .float64 => true
  | .date32, .date32 => true
  | .date64, .date64 => true
  | .timestamp u, .timestamp v => decide (u = v)
  | .time32 u, .time32 v => decide (u = v)
  | .time64 u, .time64 v => decide (u = v)
  | .duration u, .duration v => decide (u = v)
  | .binary, .binary => true
  | .largeBinary, .largeBinary => true
  | .utf8, .utf8 => true
  | .largeUtf8, .largeUtf8 => true
  | .decimal128 p s, .decimal128 q t => decide (p = q) && decide (s = t)
  | .decimal256 p s, .decimal256 q t => decide (p = q) && decide (s = t)
  | .dictionary k v, .dictionary k2 v2 => dtEq k k2 && dtEq v v2
  | .list e, .list e2 => dtEq e e2
  | .struct fs, .struct gs => fieldsEq fs gs
  | _, _ => false
termination_by structural d => d

def fieldsEq : List (String × DataType) → List (String × DataType) → Bool
  | [], [] => true
  | f :: fs, g :: gs => decide (f.1 = g.1) && dtEq f.2 g.2 && fieldsEq fs gs
  | _, _ => false
termination_by structural fs => fs
end

/-- Immutable arrow arrays, as far as the source observes them.  A list
array row directly carries its element slice (the value returned by
`ListArray::value(i)`); a dictionary array carries its key column and its
value array; a struct array carries its validity column and one child
array per field. -/
inductive ArrayData where
  | nullA (len : Nat)
  | prim (k : PrimKind) (vals : List (Option Int))
  | strA (large : Bool) (vals : List (Option String))
  | binA (large : Bool) (vals : List (Option (List Nat)))
  | dec (w : DecWidth) (precision : Nat) (scale : Int) (vals : List (Option Int))
  | dict (k : DictKey) (keys : List (Option Nat)) (values : ArrayData)
  | listA (elem : DataType) (rows : List (Option ArrayData))
  | structA (fields : List (String × DataType)) (validity : List Bool)
      (children : List ArrayData)

/-- Mutable arrow builders, as far as the source observes them.  `nullB`
is the NullBuilder of the source; `decB` is ConfiguredDecimalBuilder;
`dictPrimB` is PrimitiveDictionaryBuilder, `dictStrB` is
StringDictionaryBuilder (whose finished value array always has 32-bit
offsets, hence no largeness flag); `listB` stores the child values
builder, the recorded end offsets and the validity column; `structB`
stores the fields, one child builder per field and the validity column. -/
inductive Builder where
  | nullB (len : Nat)
  | primB (k : PrimKind) (vals : List (Option Int))
  | strB (large : Bool) (vals : List (Option String))
  | binB (large : Bool) (vals : List (Option (List Nat)))
  | decB (w : DecWidth) (precision : Nat) (scale : Int) (vals : List (Option Int))
  | dictPrimB (k : DictKey) (vk : PrimKind) (distinct : List Int)
      (keys : List (Option Nat))
  | dictStrB (k : DictKey) (distinct : List String) (keys : List (Option Nat))
  | listB (child : Builder) (ends : List Nat) (valid : List Bool)
  | structB (fields : List (String × DataType)) (children : List Builder)
      (validity : List Bool)

/-- Failure outcomes.  `invariantViolation` stands for a Rust panic from a
failed downcast or an out-of-range index access; `unsupported dt` stands
for the `unimplemented!` panics, carrying the data type the source
formats into the message; `valueOutOfRange` is the decimal
precision failure at finish; `fuelExhausted` is an artifact of the fuel
encoding of `builder_extend` and is proven unreachable. -/
inductive Err where
  | invariantViolation
  | unsupported (dt : DataType)
  | valueOutOfRange
  | fuelExhausted

/-- Logical row values, used to state value and validity equality of rows
independently of physical encoding (dictionary keys, list offsets). -/
inductive Cell where
  | intC (n : Int)
  | strC (s : String)
  | binC (b : List Nat)
  | listC (elems : List (Option Cell))
  | structC (fields : List (Option Cell))

/-- The `PrimKind` selected by the dispatch of `builder_extend` and
`builder_append_null` for simple fixed-width data types (the
`append_simple!` arms of the source match). -/
def primKindOf : DataType → Option PrimKind
  | .boolean => some .boolean
  | .int8 => some .int8
  | .int16 => some .int16
  | .int32 => some .int32
  | .int64 => some .int64
  | .uint8 => some .uint8
  | .uint16 => some .uint16
  | .uint32 => some .uint32
  | .uint64 => some .uint64
  | .float32 => some .float32
  | .float64 => some .float64
  | .date32 => some .date32
  | .date64 => some .date64
  | .timestamp .second => some .timestampSecond
  | .timestamp .millisecond => some .timestampMillisecond
  | .timestamp .microsecond => some .timestampMicrosecond
  | .timestamp .nanosecond => some .timestampNanosecond
  | .time32 .second => some .time32Second
  | .time32 .millisecond => some .time32Millisecond
  | .time64 .microsecond => some .time64Microsecond
  | .time64 .nanosecond => some .time64Nanosecond
  | _ => none

/-- The data type denoted by a primitive kind (inverse of `primKindOf`,
with timestamps mapped back to the zone-free constructor). -/
def primDT : PrimKind → DataType
  | .boolean => .boolean
  | .int8 => .int8
  | .int16 => .int16
  | .int32 => .int32
  | .int64 => .int64
  | .uint8 => .uint8
  | .uint16 => .uint16
  | .uint32 => .uint32
  | .uint64 => .uint64
  | .float32 => .float32
  | .float64 => .float64
  | .date32 => .date32
  | .date64 => .date64
  | .timestampSecond => .timestamp .second
  | .timestampMillisecond => .timestamp .millisecond
  | .timestampMicrosecond => .timestamp .microsecond
  | .timestampNanosecond => .timestamp .nanosecond
  | .time32Second => .time32 .second
  | .time32Millisecond => .time32 .millisecond
  | .time64Microsecond => .time64 .microsecond
  | .time64Nanosecond => .time64 .nanosecond

/-- Dictionary key dispatch (the eight integer key types of the source). -/
def dictKeyOf : DataType → Option DictKey
  | .int8 => some .i8
  | .int16 => some .i16
  | .int32 => some .i32
  | .int64 => some .i64
  | .uint8 => some .u8
  | .uint16 => some .u16
  | .uint32 => some .u32
  | .uint64 => some .u64
  | _ => none

/-- The data type of a dictionary key kind. -/
def dictKeyDT : DictKey → DataType
  | .i8 => .int8
  | .i16 => .int16
  | .i32 => .int32
  | .i64 => .int64
  | .u8 => .uint8
  | .u16 => .uint16
  | .u32 => .uint32
  | .u64 => .uint64

/-- Primitive dictionary value dispatch: the value types routed to
`PrimitiveDictionaryBuilder` by both `append_dict!` and
`make_dictionary_builder!` (numerics, dates and microsecond timestamps). -/
def dictValuePrimKind : DataType → Option PrimKind
  | .int8 => some .int8
  | .int16 => some .int16
  | .int32 => some .int32
  | .int64 => some .int64
  | .uint8 => some .uint8
  | .uint16 => some .uint16
  | .uint32 => some .uint32
  | .uint64 => some .uint64
  | .float32 => some .float32
  | .float64 => some .float64
  | .date32 => some .date32
  | .date64 => some .date64
  | .timestamp .microsecond => some .timestampMicrosecond
  | _ => none

/-- Kinds of leaf builders a `ListBuilder` can hold. -/
inductive LeafKind where
  | prim (k : PrimKind)
  | str (large : Bool)
  | bin (large : Bool)
  | dec (w : DecWidth)
deriving DecidableEq

/-- The list element dispatch of `append_list!` and
`append_null_for_list!` (identical closed sets in the source). -/
def listChildKind : DataType → Option LeafKind
  | .int8 => some (.prim .int8)
  | .int16 => some (.prim .int16)
  | .int32 => some (.prim .int32)
  | .int64 => some (.prim .int64)
  | .uint8 => some (.prim .uint8)
  | .uint16 => some (.prim .uint16)
  | .uint32 => some (.prim .uint32)
  | .uint64 => some (.prim .uint64)
  | .float32 => some (.prim .float32)
  | .float64 => some (.prim .float64)
  | .date32 => some (.prim .date32)
  | .date64 => some (.prim .date64)
  | .boolean => some (.prim .boolean)
  | .utf8 => some (.str false)
  | .largeUtf8 => some (.str true)
  | .timestamp .second => some (.prim .timestampSecond)
  | .timestamp .millisecond => some (.prim .timestampMillisecond)
  | .timestamp .microsecond => some (.prim .timestampMicrosecond)
  | .timestamp .nanosecond => some (.prim .timestampNanosecond)
  | .time32 .second => some (.prim .time32Second)
  | .time32 .millisecond => some (.prim .time32Millisecond)
  | .time64 .microsecond => some (.prim .time64Microsecond)
  | .time64 .nanosecond => some (.prim .time64Nanosecond)
  | .binary => some (.bin false)
  | .largeBinary => some (.bin true)
  | .decimal128 _ _ => some (.dec .d128)
  | .decimal256 _ _ => some (.dec .d256)
  | _ => none

/-- The list element dispatch of `make_list_builder!` in the factory
(a strictly smaller set than `append_list!`: no time types, only
microsecond timestamps, and no decimals). -/
def factoryListKind : DataType → Option LeafKind
  | .int8 => some (.prim .int8)
  | .int16 => some (.prim .int16)
  | .int32 => some (.prim .int32)
  | .int64 => some (.prim .int64)
  | .uint8 => some (.prim .uint8)
  | .uint16 => some (.prim .uint16)
  | .uint32 => some (.prim .uint32)
  | .uint64 => some (.prim .uint64)
  | .float32 => some (.prim .float32)
  | .float64 => some (.prim .float64)
  | .date32 => some (.prim .date32)
  | .date64 => some (.prim .date64)
  | .timestamp .microsecond => some (.prim .timestampMicrosecond)
  | .boolean => some (.prim .boolean)
  | .utf8 => some (.str false)
  | .largeUtf8 => some (.str true)
  | .binary => some (.bin false)
  | .largeBinary => some (.bin true)
  | _ => none

/-- Whether a builder is the concrete leaf builder of the given kind
(the check performed by downcasting to `ListBuilder` of that element
builder type). -/
def leafBuilderMatches (lk : LeafKind) : Builder → Bool
  | .primB k _ => decide (some k = (match lk with | .prim k2 => some k2 | _ => none))
  | .strB l _ => decide (some l = (match lk with | .str l2 => some l2 | _ => none))
  | .binB l _ => decide (some l = (match lk with | .bin l2 => some l2 | _ => none))
  | .decB w _ _ _ => decide (some w = (match lk with | .dec w2 => some w2 | _ => none))
  | _ => false

/-- A fresh empty leaf builder of the given kind (as allocated by
`make_list_builder!`; decimals never occur there but are given the
canonical empty builder for totality). -/
def emptyLeaf : LeafKind → Builder
  | .prim k => .primB k []
  | .str l => .strB l []
  | .bin l => .binB l []
  | .dec w => .decB w 0 0 []

/-- The row count of an array (`Array::len`). -/
def arrayLen : ArrayData → Nat
  | .nullA len => len
  | .prim _ vals => vals.length
  | .strA _ vals => vals.length
  | .binA _ vals => vals.length
  | .dec _ _ _ vals => vals.length
  | .dict _ keys _ => keys.length
  | .listA _ rows => rows.length
  | .structA _ validity _ => validity.length

/-- The row count of a builder (`ArrayBuilder::len`). -/
def builderLen : Builder → Nat
  | .nullB len => len
  | .primB _ vals => vals.length
  | .strB _ vals => vals.length
  | .binB _ vals => vals.length
  | .decB _ _ _ vals => vals.length
  | .dictPrimB _ _ _ keys => keys.length
  | .dictStrB _ _ keys => keys.length
  | .listB _ _ valid => valid.length
  | .structB _ _ validity => validity.length

mutual
/-- The data type reported by an array (`Array::data_type`), with
timestamp zones collapsed. -/
def dataTypeOf : ArrayData → DataType
  | .nullA _ => .null
  | .prim k _ => primDT k
  | .strA large _ => if large then .largeUtf8 else .utf8
  | .binA large _ => if large then .largeBinary else .binary
  | .dec .d128 p s _ => .decimal128 p s
  | .dec .d256 p s _ => .decimal256 p s
  | .dict k _ values => .dictionary (dictKeyDT k) (dataTypeOf values)
  | .listA elem _ => .list elem
  | .structA fields _ _ => .struct fields
termination_by structural a => a
end

/-- Arrow validation of a decimal unscaled value against a precision:
the magnitude must fit in `precision` decimal digits. -/
def decimalFits (precision : Nat) (v : Int) : Bool :=
  decide (v.natAbs ≤ 10 ^ precision - 1)

/-- Row gather on a plain value column: read position `i` for each index,
in order.  Reading out of range is a panic in the source. -/
def gatherM {α : Type} (avals : List α) : List Nat → Except Err (List α)
  | [] => .ok []
  | i :: rest =>
    match avals[i]? with
    | none => .error .invariantViolation
    | some c => do
      let g ← gatherM avals rest
      .ok (c :: g)

/-- Decoding loop of `append_dict!`: for each index, read the key column;
a null row decodes to `none`, a valid row reads `values.value(key)`.
Reading the value of a null slot returns unspecified buffer contents in
arrow and is modelled by the default `dflt`; reading a key out of the
range of the value array is a panic. -/
def dictDecodeM {α : Type} (akeys : List (Option Nat)) (avals : List (Option α))
    (dflt : α) : List Nat → Except Err (List (Option α))
  | [] => .ok []
  | i :: rest =>
    match akeys[i]? with
    | none => .error .invariantViolation
    | some none => do
      let g ← dictDecodeM akeys avals dflt rest
      .ok (none :: g)
    | some (some key) =>
      match avals[key]? with
      | none => .error .invariantViolation
      | some slot => do
        let g ← dictDecodeM akeys avals dflt rest
        .ok (some (slot.getD dflt) :: g)

/-- Lookup of a value in the interning table of a dictionary builder
(arrow keeps a value-to-key map; the model uses the first occurrence). -/
def dictFindKey {α : Type} [DecidableEq α] (v : α) : List α → Option Nat
  | [] => none
  | w :: ws => if w = v then some 0 else (dictFindKey v ws).map (· + 1)

/-- Append loop of a dictionary builder over decoded row values: null rows
append a null key; valid values are interned, reusing the existing entry
when the value is already present and appending a new distinct entry
otherwise. -/
def dictAppendLoop {α : Type} [DecidableEq α] (distinct : List α)
    (keys : List (Option Nat)) : List (Option α) → List α × List (Option Nat)
  | [] => (distinct, keys)
  | none :: rest => dictAppendLoop distinct (keys ++ [none]) rest
  | some v :: rest =>
    match dictFindKey v distinct with
    | some j => dictAppendLoop distinct (keys ++ [some j]) rest
    | none => dictAppendLoop (distinct ++ [v]) (keys ++ [some distinct.length]) rest

/-- Struct rows assembled from per-child row lists and a validity
column: a valid row bundles row `i` of every child, an invalid row is
null. -/
def structRows (ccs : List (List (Option Cell))) (validity : List Bool) :
    List (Option Cell) :=
  (List.range validity.length).map (fun i =>
    if validity.getD i false then
      some (.structC (ccs.map (fun cc => cc.getD i none)))
    else none)

mutual
/-- Logical rows of an immutable array: one optional `Cell` per row,
`none` meaning the row is null.  Dictionary rows are decoded through the
value array; struct rows bundle the row of every child. -/
def arrayCells : ArrayData → List (Option Cell)
  | .nullA len => List.replicate len none
  | .prim _ vals => vals.map (Option.map .intC)
  | .strA _ vals => vals.map (Option.map .strC)
  | .binA _ vals => vals.map (Option.map .binC)
  | .dec _ _ _ vals => vals.map (Option.map .intC)
  | .dict _ keys values =>
    keys.map (fun k? => k?.bind (fun key => (arrayCells values).getD key none))
  | .listA _ rows => arrayCellsRows rows
  | .structA _ validity children => structRows (arrayCellsChildren children) validity
termination_by structural a => a

def arrayCellsRows : List (Option ArrayData) → List (Option Cell)
  | [] => []
  | none :: rest => none :: arrayCellsRows rest
  | some slice :: rest => some (.listC (arrayCells slice)) :: arrayCellsRows rest
termination_by structural rows => rows

def arrayCellsChildren : List ArrayData → List (List (Option Cell))
  | [] => []
  | c :: cs => arrayCells c :: arrayCellsChildren cs
termination_by structural cs => cs
end

/-- Logical rows of a list builder, decoded from the child cells and the
recorded end offsets: row `i` spans the child cells between the previous
end offset and its own. -/
def listRowCells (cc : List (Option Cell)) (prev : Nat) :
    List Nat → List Bool → List (Option Cell)
  | e :: es, v :: vs =>
    (if v then some (.listC ((cc.drop prev).take (e - prev))) else none) ::
      listRowCells cc e es vs
  | _, _ => []

mutual
/-- Logical rows of a builder, mirroring `arrayCells` on finished
content: one optional `Cell` per appended row. -/
def builderCells : Builder → List (Option Cell)
  | .nullB len => List.replicate len none
  | .primB _ vals => vals.map (Option.map .intC)
  | .strB _ vals => vals.map (Option.map .strC)
  | .binB _ vals => vals.map (Option.map .binC)
  | .decB _ _ _ vals => vals.map (Option.map .intC)
  | .dictPrimB _ _ distinct keys =>
    keys.map (fun k? => k?.map (fun key => .intC (distinct.getD key 0)))
  | .dictStrB _ distinct keys =>
    keys.map (fun k? => k?.map (fun key => .strC (distinct.getD key "")))
  | .listB child ends valid => listRowCells (builderCells child) 0 ends valid
  | .structB _ children validity => structRows (builderCellsChildren children) validity
termination_by structural b => b

def builderCellsChildren : List Builder → List (List (Option Cell))
  | [] => []
  | c :: cs => builderCells c :: builderCellsChildren cs
termination_by structural cs => cs
end

/-- Offset bookkeeping invariant of a list builder: the last recorded end
offset is the current child length and every recorded end offset is
within the child. -/
def listEndsOK (ends : List Nat) (childLen : Nat) : Bool :=
  decide (ends.getLastD 0 = childLen) && ends.all (fun e => decide (e ≤ childLen))

/-- Whether a dictionary value array has no null slot (value arrays
produced by arrow dictionary builders are fully valid; null rows live in
the key column). -/
def dictValuesAllValid : ArrayData → Bool
  | .prim _ vals => vals.all Option.isSome
  | .strA _ vals => vals.all Option.isSome
  | _ => false

mutual
/-- Well-typedness of an immutable array against a type descriptor: the
physical variant matches the descriptor exactly (including decimal
precision and scale and nested types), decimal values fit the declared
precision, dictionary keys address the value array and the value array
has no null slot, list rows are slices of the element type, and struct
children are row-aligned children of the field types. -/
inductive ArrayWT : DataType → ArrayData → Prop where
  | nullA : ∀ len, ArrayWT .null (.nullA len)
  | prim : ∀ dataType k vals, primKindOf dataType = some k →
      ArrayWT dataType (.prim k vals)
  | utf8 : ∀ vals, ArrayWT .utf8 (.strA false vals)
  | largeUtf8 : ∀ vals, ArrayWT .largeUtf8 (.strA true vals)
  | binary : ∀ vals, ArrayWT .binary (.binA false vals)
  | largeBinary : ∀ vals, ArrayWT .largeBinary (.binA true vals)
  | decimal128 : ∀ p s vals,
      vals.all (fun v? => v?.all (decimalFits p)) = true →
      ArrayWT (.decimal128 p s) (.dec .d128 p s vals)
  | decimal256 : ∀ p s vals,
      vals.all (fun v? => v?.all (decimalFits p)) = true →
      ArrayWT (.decimal256 p s) (.dec .d256 p s vals)
  | dict : ∀ keyType valueType dk keys values,
      dictKeyOf keyType = some dk →
      ArrayWT valueType values →
      dictValuesAllValid values = true →
      keys.all (fun k? => k?.all (fun key => decide (key < arrayLen values))) = true →
      ArrayWT (.dictionary keyType valueType) (.dict dk keys values)
  | listA : ∀ elem rows, ArrayWTRows elem rows →
      ArrayWT (.list elem) (.listA elem rows)
  | structA : ∀ fields validity children,
      ArrayWTChildren validity.length fields children →
      ArrayWT (.struct fields) (.structA fields validity children)

/-- Well-typedness of the rows of a list array: every valid row slice is
a well-typed array of the element type. -/
inductive ArrayWTRows : DataType → List (Option ArrayData) → Prop where
  | nil : ∀ elem, ArrayWTRows elem []
  | consNone : ∀ elem rest, ArrayWTRows elem rest →
      ArrayWTRows elem (none :: rest)
  | consSome : ∀ elem slice rest, ArrayWT elem slice → ArrayWTRows elem rest →
      ArrayWTRows elem (some slice :: rest)

/-- Well-typedness of struct children: one child per field, in order,
each well-typed at the field type and of the given row count. -/
inductive ArrayWTChildren : Nat → List (String × DataType) → List ArrayData → Prop where
  | nil : ∀ n, ArrayWTChildren n [] []
  | cons : ∀ n f fs c cs, ArrayWT f.2 c → arrayLen c = n →
      ArrayWTChildren n fs cs → ArrayWTChildren n (f :: fs) (c :: cs)
end

mutual
/-- Well-typedness of a builder against a type descriptor: the concrete
builder is the one the dispatch of the source downcasts to for that
descriptor, with matching decimal metadata and in-range decimal values,
dictionary keys addressing the interning table, list offsets satisfying
`listEndsOK` over a well-typed leaf child, and struct children
well-typed and row-aligned with the struct validity column. -/
inductive BuilderWT : DataType → Builder → Prop where
  | nullB : ∀ len, BuilderWT .null (.nullB len)
  | primB : ∀ dataType k vals, primKindOf dataType = some k →
      BuilderWT dataType (.primB k vals)
  | utf8 : ∀ vals, BuilderWT .utf8 (.strB false vals)
  | largeUtf8 : ∀ vals, BuilderWT .largeUtf8 (.strB true vals)
  | binary : ∀ vals, BuilderWT .binary (.binB false vals)
  | largeBinary : ∀ vals, BuilderWT .largeBinary (.binB true vals)
  | decimal128 : ∀ p s vals,
      vals.all (fun v? => v?.all (decimalFits p)) = true →
      BuilderWT (.decimal128 p s) (.decB .d128 p s vals)
  | decimal256 : ∀ p s vals,
      vals.all (fun v? => v?.all (decimalFits p)) = true →
      BuilderWT (.decimal256 p s) (.decB .d256 p s vals)
  | dictPrimB : ∀ keyType valueType dk vk distinct keys,
      dictKeyOf keyType = some dk →
      dictValuePrimKind valueType = some vk →
      keys.all (fun k? => k?.all (fun key => decide (key < distinct.length))) = true →
      BuilderWT (.dictionary keyType valueType) (.dictPrimB dk vk distinct keys)
  | dictStrB : ∀ keyType valueType dk distinct keys,
      dictKeyOf keyType = some dk →
      (valueType = .utf8 ∨ valueType = .largeUtf8) →
      keys.all (fun k? => k?.all (fun key => decide (key < distinct.length))) = true →
      BuilderWT (.dictionary keyType valueType) (.dictStrB dk distinct keys)
  | listB : ∀ elem lk child ends valid,
      listChildKind elem = some lk →
      leafBuilderMatches lk child = true →
      BuilderWT elem child →
      ends.length = valid.length →
      listEndsOK ends (builderLen child) = true →
      BuilderWT (.list elem) (.listB child ends valid)
  | structB : ∀ fields children validity,
      BuilderWTChildren validity.length fields children →
      BuilderWT (.struct fields) (.structB fields children validity)

/-- Well-typedness of struct child builders: one child per field, in
order, each well-typed at the field type and row-aligned with the given
struct row count. -/
inductive BuilderWTChildren : Nat → List (String × DataType) → List Builder → Prop where
  | nil : ∀ n, BuilderWTChildren n [] []
  | cons : ∀ n f fs c cs, BuilderWT f.2 c → builderLen c = n →
      BuilderWTChildren n fs cs → BuilderWTChildren n (f :: fs) (c :: cs)
end

mutual
/-- Whether `builder_append_null` supports a descriptor: every supported
descriptor except dictionaries (the source dispatch of
`builder_append_null` has no dictionary arm and hits `unimplemented!`),
recursively for struct fields. -/
def nullOK : DataType → Bool
  | .dictionary _ _ => false
  | .struct fields => nullOKFields fields
  | _ => true
termination_by structural dt => dt

def nullOKFields : List (String × DataType) → Bool
  | [] => true
  | f :: fs => nullOK f.2 && nullOKFields fs
termination_by structural fs => fs
end

mutual
/-- Whether `builder_extend` can be invoked without reaching the missing
dictionary arm of `builder_append_null`: every struct field must both
extend and null-append (a null struct row null-appends every field). -/
def extOK : DataType → Bool
  | .struct fields => extOKFields fields
  | _ => true
termination_by structural dt => dt

def extOKFields : List (String × DataType) → Bool
  | [] => true
  | f :: fs => extOK f.2 && nullOK f.2 && extOKFields fs
termination_by structural fs => fs
end

mutual
/-- Embedding of `builder_append_null` (source lines 314 to 439): appends
one null row to the builder for the given descriptor.  A list builder
records an outer-invalid marker without touching its child; a struct
builder first appends a null to every field builder in order and then
marks the outer row null.  Dictionary descriptors reach the default
`unimplemented!` arm. -/
def builder_append_null (b : Builder) (dataType : DataType) : Except Err Builder :=
  match dataType with
  | .null =>
    match b with
    | .nullB len => .ok (.nullB (len + 1))
    | _ => .error .invariantViolation
  | .utf8 =>
    match b with
    | .strB false vals => .ok (.strB false (vals ++ [none]))
    | _ => .error .invariantViolation
  | .largeUtf8 =>
    match b with
    | .strB true vals => .ok (.strB true (vals ++ [none]))
    | _ => .error .invariantViolation
  | .binary =>
    match b with
    | .binB false vals => .ok (.binB false (vals ++ [none]))
    | _ => .error .invariantViolation
  | .largeBinary =>
    match b with
    | .binB true vals => .ok (.binB true (vals ++ [none]))
    | _ => .error .invariantViolation
  | .decimal128 _ _ =>
    match b with
    | .decB .d128 p s vals => .ok (.decB .d128 p s (vals ++ [none]))
    | _ => .error .invariantViolation
  | .decimal256 _ _ =>
    match b with
    | .decB .d256 p s vals => .ok (.decB .d256 p s (vals ++ [none]))
    | _ => .error .invariantViolation
  | .list elem =>
    match listChildKind elem with
    | none => .error (.unsupported elem)
    | some lk =>
      match b with
      | .listB child ends valid =>
        if leafBuilderMatches lk child then
          .ok (.listB child (ends ++ [builderLen child]) (valid ++ [false]))
        else .error .invariantViolation
      | _ => .error .invariantViolation
  | .struct fields =>
    match b with
    | .structB bfields children validity => do
      let children2 ← appendNullFields children fields
      .ok (.structB bfields children2 (validity ++ [false]))
    | _ => .error .invariantViolation
  | other =>
    match primKindOf other with
    | some k =>
      match b with
      | .primB k1 vals =>
        if k1 = k then .ok (.primB k1 (vals ++ [none]))
        else .error .invariantViolation
      | _ => .error .invariantViolation
    | none => .error (.unsupported other)
termination_by structural dataType

def appendNullFields (children : List Builder) :
    List (String × DataType) → Except Err (List Builder)
  | [] => .ok children
  | f :: fs =>
    match children with
    | [] => .error .invariantViolation
    | c :: cs => do
      let c2 ← builder_append_null c f.2
      let rest ← appendNullFields cs fs
      .ok (c2 :: rest)
termination_by structural fs => fs
end

/-- Per-field loop of the `append_struct!` valid-row branch: field builder
`j` is extended with the single index `[i]` against the source child
array `j`, for every field in order; the recursive call is supplied as
`ext`.  Missing child builders or child arrays are a panic; surplus child
builders are left untouched (the source loops over the fields only). -/
def extendFieldsGo (ext : Builder → ArrayData → List Nat → DataType → Except Err Builder)
    (i : Nat) :
    List (String × DataType) → List Builder → List ArrayData → Except Err (List Builder)
  | [], rest, _ => .ok rest
  | _ :: _, [], _ => .error .invariantViolation
  | _ :: _, _ :: _, [] => .error .invariantViolation
  | f :: fs, c :: cs, a :: as2 => do
    let c2 ← ext c a [i] f.2
    let rest ← extendFieldsGo ext i fs cs as2
    .ok (c2 :: rest)

/-- Index loop of `append_struct!`: a valid source row extends every
field builder with that single index and then marks the outer row valid;
an invalid source row is handled by `builder_append_null` on the struct,
which null-appends every field builder and marks the outer row null. -/
def extendStructGo (ext : Builder → ArrayData → List Nat → DataType → Except Err Builder)
    (bfields fields : List (String × DataType)) (avalid : List Bool)
    (achildren : List ArrayData) :
    List Builder → List Bool → List Nat → Except Err Builder
  | children, validity, [] => .ok (.structB bfields children validity)
  | children, validity, i :: rest =>
    match avalid[i]? with
    | none => .error .invariantViolation
    | some true => do
      let children2 ← extendFieldsGo ext i fields children achildren
      extendStructGo ext bfields fields avalid achildren children2 (validity ++ [true]) rest
    | some false => do
      let children2 ← appendNullFields children fields
      extendStructGo ext bfields fields avalid achildren children2 (validity ++ [false]) rest

/-- Index loop of `append_list!`: a valid source row recursively extends
the child builder with the full index range of the row slice (at the
slice data type) and then records a valid outer row; an invalid source
row only records an invalid outer row, leaving the child untouched. -/
def extendListGo (ext : Builder → ArrayData → List Nat → DataType → Except Err Builder)
    (rows : List (Option ArrayData)) :
    Builder → List Nat → List Bool → List Nat → Except Err Builder
  | child, ends, valid, [] => .ok (.listB child ends valid)
  | child, ends, valid, i :: rest =>
    match rows[i]? with
    | none => .error .invariantViolation
    | some none =>
      extendListGo ext rows child (ends ++ [builderLen child]) (valid ++ [false]) rest
    | some (some slice) => do
      let child2 ← ext child slice (List.range (arrayLen slice)) (dataTypeOf slice)
      extendListGo ext rows child2 (ends ++ [builderLen child2]) (valid ++ [true]) rest

/-- String dictionary arm of `append_dict!` (`@str`): decode each gathered
row through the source value array (32 or 64 bit offsets selected by
`large`) and intern the decoded strings into the destination
StringDictionaryBuilder. -/
def extendDictStr (b : Builder) (arr : ArrayData) (indices : List Nat)
    (dk : DictKey) (large : Bool) : Except Err Builder :=
  match b, arr with
  | .dictStrB dk1 distinct keys, .dict dk2 akeys avalues =>
    if dk1 = dk ∧ dk2 = dk then
      match avalues with
      | .strA l avals =>
        if l = large then do
          let cs ← dictDecodeM akeys avals "" indices
          let r := dictAppendLoop distinct keys cs
          .ok (.dictStrB dk1 r.1 r.2)
        else .error .invariantViolation
      | _ => .error .invariantViolation
    else .error .invariantViolation
  | _, _ => .error .invariantViolation

/-- Embedding of the `append_dict!` dispatch of `builder_extend` (source
lines 80 to 165): match the key type against the eight integer kinds
(the fallback of the source formats the value type into its panic
message), then the value type, then decode and intern each gathered row.
Valid rows append the decoded value, not the source key; null rows append
a null key. -/
def extendDict (b : Builder) (arr : ArrayData) (indices : List Nat)
    (keyType valueType : DataType) : Except Err Builder :=
  match dictKeyOf keyType with
  | none => .error (.unsupported valueType)
  | some dk =>
    match dictValuePrimKind valueType with
    | some vk =>
      match b, arr with
      | .dictPrimB dk1 vk1 distinct keys, .dict dk2 akeys avalues =>
        if dk1 = dk ∧ vk1 = vk ∧ dk2 = dk then
          match avalues with
          | .prim avk avals =>
            if avk = vk then do
              let cs ← dictDecodeM akeys avals 0 indices
              let r := dictAppendLoop distinct keys cs
              .ok (.dictPrimB dk1 vk1 r.1 r.2)
            else .error .invariantViolation
          | _ => .error .invariantViolation
        else .error .invariantViolation
      | _, _ => .error .invariantViolation
    | none =>
      match valueType with
      | .utf8 => extendDictStr b arr indices dk false
      | .largeUtf8 => extendDictStr b arr indices dk true
      | _ => .error (.unsupported valueType)

/-- Embedding of `builder_extend` (source lines 43 to 312), with a fuel
argument bounding the recursion depth through nested arrays.  For each
arm the builder and the source array are downcast to the concrete types
selected by the data type (a mismatch is a panic), then each index is
gathered in order: valid source rows append the source value, invalid
rows append a null.  The `Null` arm only advances the NullBuilder by the
number of indices. -/
def builder_extendF : Nat → Builder → ArrayData → List Nat → DataType → Except Err Builder
  | 0, _, _, _, _ => .error .fuelExhausted
  | fuel + 1, b, arr, indices, dataType =>
    match dataType with
    | .null =>
      match b with
      | .nullB len => .ok (.nullB (len + indices.length))
      | _ => .error .invariantViolation
    | .utf8 =>
      match b, arr with
      | .strB false vals, .strA false avals => do
        let g ← gatherM avals indices
        .ok (.strB false (vals ++ g))
      | _, _ => .error .invariantViolation
    | .largeUtf8 =>
      match b, arr with
      | .strB true vals, .strA true avals => do
        let g ← gatherM avals indices
        .ok (.strB true (vals ++ g))
      | _, _ => .error .invariantViolation
    | .binary =>
      match b, arr with
      | .binB false vals, .binA false avals => do
        let g ← gatherM avals indices
        .ok (.binB false (vals ++ g))
      | _, _ => .error .invariantViolation
    | .largeBinary =>
      match b, arr with
      | .binB true vals, .binA true avals => do
        let g ← gatherM avals indices
        .ok (.binB true (vals ++ g))
      | _, _ => .error .invariantViolation
    | .decimal128 _ _ =>
      match b, arr with
      | .decB .d128 p s vals, .dec .d128 _ _ avals => do
        let g ← gatherM avals indices
        .ok (.decB .d128 p s (vals ++ g))
      | _, _ => .error .invariantViolation
    | .decimal256 _ _ =>
      match b, arr with
      | .decB .d256 p s vals, .dec .d256 _ _ avals => do
        let g ← gatherM avals indices
        .ok (.decB .d256 p s (vals ++ g))
      | _, _ => .error .invariantViolation
    | .dictionary keyType valueType => extendDict b arr indices keyType valueType
    | .list elem =>
      match listChildKind elem with
      | none => .error (.unsupported elem)
      | some lk =>
        match b, arr with
        | .listB child ends valid, .listA _ rows =>
          if leafBuilderMatches lk child then
            extendListGo (builder_extendF fuel) rows child ends valid indices
          else .error .invariantViolation
        | _, _ => .error .invariantViolation
    | .struct fields =>
      match b, arr with
      | .structB bfields children validity, .structA _ avalid achildren =>
        extendStructGo (builder_extendF fuel) bfields fields avalid achildren
          children validity indices
      | _, _ => .error .invariantViolation
    | other =>
      match primKindOf other with
      | some k =>
        match b, arr with
        | .primB k1 vals, .prim k2 avals =>
          if k1 = k ∧ k2 = k then do
            let g ← gatherM avals indices
            .ok (.primB k1 (vals ++ g))
          else .error .invariantViolation
        | _, _ => .error .invariantViolation
      | none => .error (.unsupported other)

mutual
/-- Nesting depth of an array; recursion in `builder_extend` only
descends into strictly shallower arrays (list row slices and struct
children). -/
def arrayDepth : ArrayData → Nat
  | .nullA _ => 0
  | .prim _ _ => 0
  | .strA _ _ => 0
  | .binA _ _ => 0
  | .dec _ _ _ _ => 0
  | .dict _ _ values => arrayDepth values + 1
  | .listA _ rows => rowsDepth rows + 1
  | .structA _ _ children => childrenDepth children + 1
termination_by structural a => a

def rowsDepth : List (Option ArrayData) → Nat
  | [] => 0
  | none :: rest => rowsDepth rest
  | some slice :: rest => max (arrayDepth slice) (rowsDepth rest)
termination_by structural rows => rows

def childrenDepth : List ArrayData → Nat
  | [] => 0
  | c :: cs => max (arrayDepth c) (childrenDepth cs)
termination_by structural cs => cs
end

/-- Embedding of `builder_extend`: the fuel is one more than the nesting
depth of the source array, which the totality results show is never
exhausted. -/
def builder_extend (b : Builder) (arr : ArrayData) (indices : List Nat)
    (dataType : DataType) : Except Err Builder :=
  builder_extendF (arrayDepth arr + 1) b arr indices dataType

mutual
/-- Embedding of `new_array_builder` (source lines 441 to 545): maps a
data type and a capacity hint to a fresh empty builder.  `Null` gets the
NullBuilder, decimals get ConfiguredDecimalBuilder retaining precision
and scale, dictionaries dispatch on key and value type (failing with the
offending key or value type), lists dispatch on the element type through
`make_list_builder!` (failing with the offending element type), and the
remaining types go to the arrow `make_builder`.  Modelled from the spec:
the arrow `make_builder` fallback is not part of this repository; per the
specification the factory supports the remaining leaf descriptors
directly and builds struct builders recursively, one child builder per
field in field order, and fails with the unsupported descriptor
otherwise.  The capacity hint only pre-sizes buffers and has no observable
effect in the model. -/
def new_array_builder (dataType : DataType) (batchSize : Nat) : Except Err Builder :=
  match dataType with
  | .null => .ok (.nullB 0)
  | .decimal128 p s => .ok (.decB .d128 p s [])
  | .decimal256 p s => .ok (.decB .d256 p s [])
  | .dictionary keyType valueType =>
    match dictKeyOf keyType with
    | none => .error (.unsupported keyType)
    | some dk =>
      match dictValuePrimKind valueType with
      | some vk => .ok (.dictPrimB dk vk [] [])
      | none =>
        match valueType with
        | .utf8 => .ok (.dictStrB dk [] [])
        | .largeUtf8 => .ok (.dictStrB dk [] [])
        | _ => .error (.unsupported valueType)
  | .list elem =>
    match factoryListKind elem with
    | some lk => .ok (.listB (emptyLeaf lk) [] [])
    | none => .error (.unsupported elem)
  | .struct fields => do
    let children ← newFieldBuilders fields batchSize
    .ok (.structB fields children [])
  | other =>
    match primKindOf other with
    | some k => .ok (.primB k [])
    | none =>
      match other with
      | .utf8 => .ok (.strB false [])
      | .largeUtf8 => .ok (.strB true [])
      | .binary => .ok (.binB false [])
      | .largeBinary => .ok (.binB true [])
      | _ => .error (.unsupported other)
termination_by structural dataType

def newFieldBuilders (fields : List (String × DataType)) (batchSize : Nat) :
    Except Err (List Builder) :=
  match fields with
  | [] => .ok []
  | f :: fs => do
    let c ← new_array_builder f.2 batchSize
    let rest ← newFieldBuilders fs batchSize
    .ok (c :: rest)
termination_by structural fields
end

mutual
/-- Specification-level description of the factory domain: the first
descriptor at which the factory fails, in factory dispatch order (for
dictionaries the key is checked before the value; struct fields are
checked in field order), or `none` when the descriptor is fully
supported. -/
def firstUnsupported : DataType → Option DataType
  | .null => none
  | .decimal128 _ _ => none
  | .decimal256 _ _ => none
  | .dictionary keyType valueType =>
    match dictKeyOf keyType with
    | none => some keyType
    | some _ =>
      match dictValuePrimKind valueType with
      | some _ => none
      | none =>
        match valueType with
        | .utf8 => none
        | .largeUtf8 => none
        | _ => some valueType
  | .list elem =>
    match factoryListKind elem with
    | some _ => none
    | none => some elem
  | .struct fields => firstUnsupportedFields fields
  | other =>
    match primKindOf other with
    | some _ => none
    | none =>
      match other with
      | .utf8 => none
      | .largeUtf8 => none
      | .binary => none
      | .largeBinary => none
      | _ => some other
termination_by structural dt => dt

def firstUnsupportedFields : List (String × DataType) → Option DataType
  | [] => none
  | f :: fs =>
    match firstUnsupported f.2 with
    | some bad => some bad
    | none => firstUnsupportedFields fs
termination_by structural fs => fs
end

mutual
/-- Zero-copy slice of an array (`Array::slice`), starting at `start`
with `len` rows. -/
def arraySlice (a : ArrayData) (start len : Nat) : ArrayData :=
  match a with
  | .nullA n => .nullA (min len (n - start))
  | .prim k vals => .prim k ((vals.drop start).take len)
  | .strA l vals => .strA l ((vals.drop start).take len)
  | .binA l vals => .binA l ((vals.drop start).take len)
  | .dec w p s vals => .dec w p s ((vals.drop start).take len)
  | .dict dk keys values => .dict dk ((keys.drop start).take len) values
  | .listA e rows => .listA e ((rows.drop start).take len)
  | .structA f validity children =>
    .structA f ((validity.drop start).take len) (arraySliceAll children start len)
termination_by structural a

def arraySliceAll (children : List ArrayData) (start len : Nat) : List ArrayData :=
  match children with
  | [] => []
  | c :: cs => arraySlice c start len :: arraySliceAll cs start len
termination_by structural children
end

/-- Rows of a finished list array, reconstructed from the finished child
array and the recorded end offsets: a valid row is the child slice
between the previous end offset and its own, an invalid row carries no
slice. -/
def mkListRows (ca : ArrayData) (prev : Nat) :
    List Nat → List Bool → List (Option ArrayData)
  | e :: es, v :: vs =>
    (if v then some (arraySlice ca prev (e - prev)) else none) :: mkListRows ca e es vs
  | _, _ => []

mutual
/-- Embedding of `ArrayBuilder::finish_cloned` content-wise: the
immutable array a builder finishes into.  The NullBuilder finishes into
a null array of its length (source lines 573 to 579); the
ConfiguredDecimalBuilder applies its retained precision and scale and
fails with `ValueOutOfRange` when a stored value does not fit the
precision (source lines 640 to 656, where the failure is an unwrap
panic); dictionary builders finish into a dictionary array over their
interning table (string dictionaries into 32-bit-offset strings); list
and struct builders finish their children recursively. -/
def finishCloned : Builder → Except Err ArrayData
  | .nullB len => .ok (.nullA len)
  | .primB k vals => .ok (.prim k vals)
  | .strB l vals => .ok (.strA l vals)
  | .binB l vals => .ok (.binA l vals)
  | .decB w p s vals =>
    if vals.all (fun v? => v?.all (decimalFits p)) then .ok (.dec w p s vals)
    else .error .valueOutOfRange
  | .dictPrimB dk vk distinct keys => .ok (.dict dk keys (.prim vk (distinct.map some)))
  | .dictStrB dk distinct keys => .ok (.dict dk keys (.strA false (distinct.map some)))
  | .listB child ends valid => do
    let ca ← finishCloned child
    .ok (.listA (dataTypeOf ca) (mkListRows ca 0 ends valid))
  | .structB bfields children validity => do
    let cas ← finishChildren children
    .ok (.structA bfields validity cas)
termination_by structural b => b

def finishChildren : List Builder → Except Err (List ArrayData)
  | [] => .ok []
  | c :: cs => do
    let ca ← finishCloned c
    let rest ← finishChildren cs
    .ok (ca :: rest)
termination_by structural cs => cs
end

mutual
/-- Builder state after `finish`.  Arrow builders are reset to empty by
`finish`; the NullBuilder of the source deviates: its `finish` delegates
to `finish_cloned` and leaves the length untouched (source lines 573 to
575). -/
def finishReset : Builder → Builder
  | .nullB len => .nullB len
  | .primB k _ => .primB k []
  | .strB l _ => .strB l []
  | .binB l _ => .binB l []
  | .decB w p s _ => .decB w p s []
  | .dictPrimB dk vk _ _ => .dictPrimB dk vk [] []
  | .dictStrB dk _ _ => .dictStrB dk [] []
  | .listB child _ _ => .listB (finishReset child) [] []
  | .structB bfields children _ => .structB bfields (finishResetAll children) []
termination_by structural b => b

def finishResetAll : List Builder → List Builder
  | [] => []
  | c :: cs => finishReset c :: finishResetAll cs
termination_by structural cs => cs
end

/-- Embedding of `ArrayBuilder::finish`: the finished immutable array
together with the post-finish builder state. -/
def finish (b : Builder) : Except Err (ArrayData × Builder) :=
  (finishCloned b).map (fun a => (a, finishReset b))

/-- One mutating call in an interleaved sequence: an extend with a source
array and an index list, or one null append. -/
inductive BuilderOp where
  | extendOp (arr : ArrayData) (indices : List Nat)
  | nullOp

/-- Number of rows an operation is specified to append: the number of
indices processed for an extend, one for a null append. -/
def opCount : BuilderOp → Nat
  | .extendOp _ indices => indices.length
  | .nullOp => 1

/-- Run an interleaved sequence of extend and null-append calls against
one builder with a fixed type descriptor. -/
def runOps (dataType : DataType) (b : Builder) : List BuilderOp → Except Err Builder
  | [] => .ok b
  | .extendOp arr indices :: rest => do
    let b2 ← builder_extend b arr indices dataType
    runOps dataType b2 rest
  | .nullOp :: rest => do
    let b2 ← builder_append_null b dataType
    runOps dataType b2 rest

/-- Precondition on an operation sequence: extends use a well-typed
source of the builder type with in-range indices, and null appends are
only used when the descriptor supports null append. -/
def OpsOK (dataType : DataType) : List BuilderOp → Prop
  | [] => True
  | .extendOp arr indices :: rest =>
    ArrayWT dataType arr ∧ (∀ i ∈ indices, i < arrayLen arr) ∧ OpsOK dataType rest
  | .nullOp :: rest => nullOK dataType = true ∧ OpsOK dataType rest

section BasicLemmas

mutual
theorem dtEq_refl : ∀ x, dtEq x x = true := by
  intro x
  cases x
  case timestamp u => exact decide_eq_true rfl
  case time32 u => exact decide_eq_true rfl
  case time64 u => exact decide_eq_true rfl
  case duration u => exact decide_eq_true rfl
  case decimal128 p s =>
    show (decide (p = p) && decide (s = s)) = true
    simp
  case decimal256 p s =>
    show (decide (p = p) && decide (s = s)) = true
    simp
  case dictionary k v =>
    show (dtEq k k && dtEq v v) = true
    rw [dtEq_refl k, dtEq_refl v]
    rfl
  case list e =>
    show dtEq e e = true
    exact dtEq_refl e
  case struct fs =>
    show fieldsEq fs fs = true
    exact fieldsEq_refl fs
  all_goals rfl
termination_by structural x => x

theorem fieldsEq_refl : ∀ fs, fieldsEq fs fs = true := by
  intro fs
  cases fs with
  | nil => rfl
  | cons f fs2 =>
    show (decide (f.1 = f.1) && dtEq f.2 f.2 && fieldsEq fs2 fs2) = true
    rw [dtEq_refl f.2, fieldsEq_refl fs2]
    simp
termination_by structural fs => fs
end

theorem getD_map_none {α β : Type} (f : α → β) (l : List (Option α)) (i : Nat) :
    (l.map (Option.map f)).getD i none = Option.map f (l.getD i none) := by
  simp [List.getD_eq_getElem?_getD, List.getElem?_map]
  cases l[i]? <;> simp

theorem range_map_getD {α : Type} (l : List α) (d : α) :
    (List.range l.length).map (fun i => l.getD i d) = l := by
  apply List.ext_getElem?
  intro i
  rw [List.getElem?_map]
  by_cases h : i < l.length
  · rw [List.getElem?_range h, List.getElem?_eq_getElem h]
    simp [List.getD_eq_getElem?_getD, List.getElem?_eq_getElem h]
  · have h1 : (List.range l.length)[i]? = none := by
      rw [List.getElem?_eq_none_iff]
      simpa using Nat.le_of_not_lt h
    have h2 : l[i]? = none := by
      rw [List.getElem?_eq_none_iff]
      exact Nat.le_of_not_lt h
    rw [h1, h2]
    rfl

theorem all_getD {α : Type} (p : α → Bool) (l : List α) (d : α) (hd : p d = true)
    (hall : l.all p = true) (i : Nat) : p (l.getD i d) = true := by
  rw [List.getD_eq_getElem?_getD]
  cases h : l[i]? with
  | none => simpa using hd
  | some a =>
    rw [List.all_eq_true] at hall
    have := hall a (by rw [List.getElem?_eq_some] at h; obtain ⟨hlt, he⟩ := h; rw [← he]; exact List.getElem_mem hlt)
    simpa using this

theorem getD_append_left {α : Type} (l extra : List α) (d : α) (i : Nat)
    (h : i < l.length) : (l ++ extra).getD i d = l.getD i d := by
  simp [List.getD_eq_getElem?_getD, List.getElem?_append_left h]

theorem getD_append_right_self {α : Type} (l : List α) (x d : α) :
    (l ++ [x]).getD l.length d = x := by
  simp [List.getD_eq_getElem?_getD]

theorem gatherM_ok {α : Type} (avals : List α) (d : α) :
    ∀ idx : List Nat, (∀ i ∈ idx, i < avals.length) →
      gatherM avals idx = .ok (idx.map (fun i => avals.getD i d)) := by
  intro idx
  induction idx with
  | nil => intro _; rfl
  | cons i rest ih =>
    intro h
    have hi : i < avals.length := h i (by simp)
    have hrest := ih (fun j hj => h j (by simp [hj]))
    have hd : avals.getD i d = avals[i] := by
      simp [List.getD_eq_getElem?_getD, List.getElem?_eq_getElem hi]
    simp only [gatherM, List.getElem?_eq_getElem hi, hrest, List.map_cons, hd]
    rfl

end BasicLemmas

section CellsLemmas

theorem listRowCells_length (cc : List (Option Cell)) :
    ∀ (ends : List Nat) (valid : List Bool) (prev : Nat),
      (listRowCells cc prev ends valid).length = min ends.length valid.length := by
  intro ends
  induction ends with
  | nil => intro valid prev; cases valid <;> simp [listRowCells]
  | cons e es ih =>
    intro valid prev
    cases valid with
    | nil => simp [listRowCells]
    | cons v vs => simp [listRowCells, ih vs e, Nat.succ_min_succ]

theorem listRowCells_snoc (cc : List (Option Cell)) (e : Nat) (bv : Bool) :
    ∀ (ends : List Nat) (valid : List Bool) (prev : Nat),
      ends.length = valid.length →
      listRowCells cc prev (ends ++ [e]) (valid ++ [bv]) =
        listRowCells cc prev ends valid ++
          [if bv then
              some (.listC ((cc.drop (ends.getLastD prev)).take (e - ends.getLastD prev)))
            else none] := by
  intro ends
  induction ends with
  | nil =>
    intro valid prev h
    have hv : valid = [] := List.length_eq_zero.mp h.symm
    subst hv
    simp [listRowCells]
  | cons e0 es ih =>
    intro valid prev h
    cases valid with
    | nil => simp at h
    | cons v0 vs =>
      simp only [List.cons_append, listRowCells, List.append_eq]
      rw [ih vs e0 (by simpa using h)]
      congr 2
      cases es <;> simp [List.getLastD]

theorem listRowCells_stable (cc extra : List (Option Cell)) :
    ∀ (ends : List Nat) (valid : List Bool) (prev : Nat),
      prev ≤ cc.length → (∀ x ∈ ends, x ≤ cc.length) →
      listRowCells (cc ++ extra) prev ends valid = listRowCells cc prev ends valid := by
  intro ends
  induction ends with
  | nil => intro valid prev _ _; cases valid <;> rfl
  | cons e0 es ih =>
    intro valid prev hprev hends
    cases valid with
    | nil => rfl
    | cons v0 vs =>
      have he0 : e0 ≤ cc.length := hends e0 (by simp)
      simp only [listRowCells]
      congr 1
      · congr 2
        rw [List.drop_append_of_le_length hprev]
        rw [List.take_append_of_le_length]
        rw [List.length_drop]
        exact Nat.sub_le_sub_right he0 prev
      · exact ih vs e0 he0 (fun x hx => hends x (by simp [hx]))

theorem structRows_length (ccs : List (List (Option Cell))) (validity : List Bool) :
    (structRows ccs validity).length = validity.length := by
  simp [structRows]

theorem structRows_getD (ccs : List (List (Option Cell))) (validity : List Bool)
    (i : Nat) (h : i < validity.length) :
    (structRows ccs validity).getD i none =
      (if validity.getD i false then
        some (.structC (ccs.map (fun cc => cc.getD i none)))
      else none) := by
  simp only [structRows, List.getD_eq_getElem?_getD, List.getElem?_map,
    List.getElem?_range h]
  rfl

theorem structRows_snoc (ccs ccs2 : List (List (Option Cell))) (validity : List Bool)
    (bv : Bool)
    (hstab : ∀ i, i < validity.length →
      ccs2.map (fun cc => cc.getD i none) = ccs.map (fun cc => cc.getD i none)) :
    structRows ccs2 (validity ++ [bv]) =
      structRows ccs validity ++
        [if bv then
            some (.structC (ccs2.map (fun cc => cc.getD validity.length none)))
          else none] := by
  simp only [structRows, List.length_append, List.length_singleton, List.range_succ,
    List.map_append]
  congr 1
  · apply List.map_congr_left
    intro i hi
    rw [List.mem_range] at hi
    rw [getD_append_left _ _ _ _ hi, hstab i hi]
  · simp [getD_append_right_self]

theorem arrayCellsRows_length :
    ∀ rows : List (Option ArrayData), (arrayCellsRows rows).length = rows.length := by
  intro rows
  induction rows with
  | nil => rfl
  | cons r rest ih => cases r <;> simp [arrayCellsRows, ih]

theorem arrayCells_length (a : ArrayData) : (arrayCells a).length = arrayLen a := by
  cases a <;> simp [arrayCells, arrayLen, arrayCellsRows_length, structRows_length]

theorem builderCellsChildren_map :
    ∀ children : List Builder,
      builderCellsChildren children = children.map builderCells := by
  intro children
  induction children with
  | nil => rfl
  | cons c cs ih => simp [builderCellsChildren, ih]

theorem arrayCellsChildren_map :
    ∀ children : List ArrayData,
      arrayCellsChildren children = children.map arrayCells := by
  intro children
  induction children with
  | nil => rfl
  | cons c cs ih => simp [arrayCellsChildren, ih]

theorem listEndsOK_last (ends : List Nat) (n : Nat) (h : listEndsOK ends n = true) :
    ends.getLastD 0 = n := by
  unfold listEndsOK at h
  rw [Bool.and_eq_true] at h
  exact of_decide_eq_true h.1

theorem listEndsOK_bound (ends : List Nat) (n : Nat) (h : listEndsOK ends n = true) :
    ∀ x ∈ ends, x ≤ n := by
  unfold listEndsOK at h
  rw [Bool.and_eq_true] at h
  intro x hx
  exact of_decide_eq_true (List.all_eq_true.mp h.2 x hx)

theorem builderLen_cells (dataType : DataType) (b : Builder)
    (h : BuilderWT dataType b) : (builderCells b).length = builderLen b := by
  cases h
  case listB elem lk child ends valid h1 h2 h3 hlen h5 =>
    simp [builderCells, builderLen, listRowCells_length, hlen]
  all_goals simp [builderCells, builderLen, structRows_length]

end CellsLemmas

section AppendNullSpec

theorem primDT_primKindOf : ∀ (dataType : DataType) (k : PrimKind),
    primKindOf dataType = some k → primDT k = dataType := by
  intro dataType k h
  cases dataType <;>
    first
    | exact Option.noConfusion h
    | (have h2 : some _ = some k := h
       injection h2 with h3
       subst h3
       rfl)
    | (rename_i u
       cases u <;>
         first
         | exact Option.noConfusion h
         | (have h2 : some _ = some k := h
            injection h2 with h3
            subst h3
            rfl))

theorem listEndsOK_grow (ends : List Nat) (n m : Nat) (h : listEndsOK ends n = true)
    (hm : n ≤ m) : listEndsOK (ends ++ [m]) m = true := by
  have hb := listEndsOK_bound ends n h
  unfold listEndsOK
  rw [Bool.and_eq_true]
  constructor
  · exact decide_eq_true (List.getLastD_concat _ _ _)
  · rw [List.all_eq_true]
    intro x hx
    rw [List.mem_append] at hx
    apply decide_eq_true
    rcases hx with hx | hx
    · exact Nat.le_trans (hb x hx) hm
    · simp at hx
      exact hx.le

theorem childrenCells_length : ∀ (n : Nat) (fields : List (String × DataType))
    (children : List Builder), BuilderWTChildren n fields children →
    ∀ cc ∈ builderCellsChildren children, cc.length = n := by
  intro n fields
  induction fields with
  | nil =>
    intro children h
    cases h
    intro cc hcc
    simp [builderCellsChildren] at hcc
  | cons f fs ih =>
    intro children h
    cases h with
    | cons _ _ _ c cs hc hlen hrest =>
      intro cc hcc
      simp only [builderCellsChildren, List.mem_cons] at hcc
      rcases hcc with hcc | hcc
      · rw [hcc, builderLen_cells f.2 c hc, hlen]
      · exact ih cs hrest cc hcc

mutual
theorem builder_append_null_spec : ∀ (dataType : DataType) (b : Builder),
    BuilderWT dataType b → nullOK dataType = true →
    ∃ b2, builder_append_null b dataType = .ok b2 ∧ BuilderWT dataType b2 ∧
      builderCells b2 = builderCells b ++ [none] ∧
      builderLen b2 = builderLen b + 1 := by
  intro dataType b hWT hOK
  cases hWT
  case nullB len =>
    exact ⟨_, rfl, .nullB _, by simp [builderCells, List.replicate_succ'], rfl⟩
  case primB k vals hk =>
    cases dataType <;>
      first
      | exact Option.noConfusion hk
      | (have hk2 : some _ = some k := hk
         injection hk2 with hk3
         subst hk3
         exact ⟨_, rfl, .primB _ _ _ rfl, by simp [builderCells], by simp [builderLen]⟩)
      | (rename_i u
         cases u <;>
           first
           | exact Option.noConfusion hk
           | (have hk2 : some _ = some k := hk
              injection hk2 with hk3
              subst hk3
              exact ⟨_, rfl, .primB _ _ _ rfl, by simp [builderCells], by simp [builderLen]⟩))
  case utf8 vals =>
    exact ⟨_, rfl, .utf8 _, by simp [builderCells], by simp [builderLen]⟩
  case largeUtf8 vals =>
    exact ⟨_, rfl, .largeUtf8 _, by simp [builderCells], by simp [builderLen]⟩
  case binary vals =>
    exact ⟨_, rfl, .binary _, by simp [builderCells], by simp [builderLen]⟩
  case largeBinary vals =>
    exact ⟨_, rfl, .largeBinary _, by simp [builderCells], by simp [builderLen]⟩
  case decimal128 p s vals hfits =>
    refine ⟨_, rfl, .decimal128 p s _ ?_, by simp [builderCells], by simp [builderLen]⟩
    rw [List.all_append, hfits]
    rfl
  case decimal256 p s vals hfits =>
    refine ⟨_, rfl, .decimal256 p s _ ?_, by simp [builderCells], by simp [builderLen]⟩
    rw [List.all_append, hfits]
    rfl
  case dictPrimB dk vk distinct keys h1 h2 h3 =>
    exact Bool.noConfusion hOK
  case dictStrB dk distinct keys h1 h2 h3 =>
    exact Bool.noConfusion hOK
  case listB lk child ends valid hlk hmatch hchild hlen hendsOK =>
    rename_i elem
    refine ⟨.listB child (ends ++ [builderLen child]) (valid ++ [false]), ?_, ?_, ?_, ?_⟩
    · simp [builder_append_null, hlk, hmatch]
    · exact .listB elem lk child _ _ hlk hmatch hchild (by simp [hlen])
        (listEndsOK_grow ends (builderLen child) (builderLen child) hendsOK (Nat.le_refl _))
    · simp only [builderCells]
      rw [listRowCells_snoc _ _ _ _ _ _ hlen]
      simp
    · simp [builderLen]
  case structB children validity hch =>
    rename_i fields
    have hOK2 : nullOKFields fields = true := hOK
    obtain ⟨children2, heq, hwt2, hcells⟩ :=
      appendNullFields_spec fields validity.length children hch hOK2
    refine ⟨.structB fields children2 (validity ++ [false]), ?_, ?_, ?_, ?_⟩
    · simp only [builder_append_null]
      rw [heq]
      rfl
    · refine .structB fields children2 (validity ++ [false]) ?_
      have : (validity ++ [false]).length = validity.length + 1 := by simp
      rw [this]
      exact hwt2
    · simp only [builderCells]
      rw [hcells]
      rw [structRows_snoc (builderCellsChildren children) _ validity false ?_]
      · simp
      · intro i hi
        rw [List.map_map]
        apply List.map_congr_left
        intro cc hcc
        have hlcc : cc.length = validity.length :=
          childrenCells_length validity.length fields children hch cc hcc
        exact getD_append_left cc [none] none i (hlcc ▸ hi)
    · simp [builderLen]
termination_by structural dataType => dataType

theorem appendNullFields_spec : ∀ (fields : List (String × DataType)) (n : Nat)
    (children : List Builder), BuilderWTChildren n fields children →
    nullOKFields fields = true →
    ∃ children2, appendNullFields children fields = .ok children2 ∧
      BuilderWTChildren (n + 1) fields children2 ∧
      builderCellsChildren children2 =
        (builderCellsChildren children).map (fun cc => cc ++ [none]) := by
  intro fields n children hWTC hOK
  cases hWTC with
  | nil => exact ⟨[], rfl, .nil _, rfl⟩
  | cons n f fs c cs hc hlen hrest =>
    have hOK2 : (nullOK f.2 && nullOKFields fs) = true := hOK
    rw [Bool.and_eq_true] at hOK2
    obtain ⟨c2, heq1, hwt1, hcells1, hlen1⟩ :=
      builder_append_null_spec f.2 c hc hOK2.1
    obtain ⟨cs2, heq2, hwt2, hcells2⟩ :=
      appendNullFields_spec fs n cs hrest hOK2.2
    refine ⟨c2 :: cs2, ?_, ?_, ?_⟩
    · simp only [appendNullFields]
      rw [heq1, heq2]
      rfl
    · exact .cons (n + 1) f fs c2 cs2 hwt1 (by rw [hlen1, hlen]) hwt2
    · simp only [builderCellsChildren, List.map_cons]
      rw [hcells1, hcells2]
termination_by structural fields => fields
end

end AppendNullSpec

/-- The logical rows gathered from a source array by an index list: entry
`k` is row `idx k` of the source. -/
def gatherCells (arr : ArrayData) (idx : List Nat) : List (Option Cell) :=
  idx.map (fun i => (arrayCells arr).getD i none)

section DictSpec

theorem dictValuePrimKind_agree : ∀ (dataType : DataType) (vk : PrimKind),
    dictValuePrimKind dataType = some vk → primKindOf dataType = some vk := by
  intro dataType vk h
  cases dataType <;>
    first
    | exact Option.noConfusion h
    | exact h
    | (rename_i u
       cases u <;> first | exact Option.noConfusion h | exact h)

theorem dictDecodeM_ok {α : Type} (akeys : List (Option Nat))
    (avals : List (Option α)) (dflt : α)
    (hbound : ∀ k? ∈ akeys, ∀ key, k? = some key → key < avals.length)
    (hvalid : ∀ slot ∈ avals, slot.isSome = true) :
    ∀ idx : List Nat, (∀ i ∈ idx, i < akeys.length) →
      dictDecodeM akeys avals dflt idx =
        .ok (idx.map (fun i =>
          (akeys.getD i none).bind (fun key => avals.getD key none))) := by
  intro idx
  induction idx with
  | nil => intro _; rfl
  | cons i rest ih =>
    intro h
    have hi : i < akeys.length := h i (by simp)
    have hrest := ih (fun j hj => h j (by simp [hj]))
    have hgd : akeys.getD i none = akeys[i] := by
      simp [List.getD_eq_getElem?_getD, List.getElem?_eq_getElem hi]
    cases hk : akeys[i] with
    | none =>
      simp only [dictDecodeM, List.getElem?_eq_getElem hi, hk, hrest, List.map_cons,
        hgd]
      rfl
    | some key =>
      have hkey : key < avals.length :=
        hbound akeys[i] (List.getElem_mem hi) key hk
      have hslot : avals[key].isSome = true :=
        hvalid avals[key] (List.getElem_mem hkey)
      obtain ⟨v, hv⟩ := Option.isSome_iff_exists.mp hslot
      have hgd2 : avals.getD key none = avals[key] := by
        simp [List.getD_eq_getElem?_getD, List.getElem?_eq_getElem hkey]
      simp only [dictDecodeM, List.getElem?_eq_getElem hi, hk,
        List.getElem?_eq_getElem hkey, hrest, List.map_cons, hgd, hgd2, hv,
        Option.some_bind, Option.getD_some]
      rfl

theorem dictFindKey_some {α : Type} [DecidableEq α] (v : α) (d0 : α) :
    ∀ l : List α, ∀ j, dictFindKey v l = some j → j < l.length ∧ l.getD j d0 = v := by
  intro l
  induction l with
  | nil => intro j h; exact Option.noConfusion h
  | cons w ws ih =>
    intro j h
    simp only [dictFindKey] at h
    by_cases hw : w = v
    · rw [if_pos hw] at h
      injection h with h2
      subst h2
      exact ⟨Nat.succ_pos _, hw⟩
    · rw [if_neg hw] at h
      cases hj : dictFindKey v ws with
      | none => rw [hj] at h; exact Option.noConfusion h
      | some j0 =>
        rw [hj] at h
        injection h with h2
        subst h2
        obtain ⟨h3, h4⟩ := ih j0 hj
        exact ⟨Nat.succ_lt_succ h3, h4⟩

theorem dictFindKey_none {α : Type} [DecidableEq α] (v : α) :
    ∀ l : List α, dictFindKey v l = none → v ∉ l := by
  intro l
  induction l with
  | nil => intro _ h; simp at h
  | cons w ws ih =>
    intro h
    simp only [dictFindKey] at h
    by_cases hw : w = v
    · rw [if_pos hw] at h; exact Option.noConfusion h
    · rw [if_neg hw] at h
      cases hj : dictFindKey v ws with
      | none =>
        intro hmem
        rcases List.mem_cons.mp hmem with h2 | h2
        · exact hw h2.symm
        · exact ih hj h2
      | some j0 => rw [hj] at h; exact Option.noConfusion h

/-- Logical cells of a dictionary key column decoded through an interning
table. -/
def keyCells {α : Type} (f : α → Cell) (d0 : α) (distinct : List α)
    (keys : List (Option Nat)) : List (Option Cell) :=
  keys.map (fun k? => k?.map (fun key => f (distinct.getD key d0)))

theorem keyCells_mono {α : Type} (f : α → Cell) (d0 : α) (distinct extra : List α)
    (keys : List (Option Nat))
    (hkb : ∀ k? ∈ keys, ∀ key, k? = some key → key < distinct.length) :
    keyCells f d0 (distinct ++ extra) keys = keyCells f d0 distinct keys := by
  unfold keyCells
  apply List.map_congr_left
  intro k? hk?
  cases k? with
  | none => rfl
  | some key =>
    simp only [Option.map_some']
    rw [getD_append_left _ _ _ _ (hkb (some key) hk? key rfl)]

theorem dictAppendLoop_spec {α : Type} [DecidableEq α] (f : α → Cell) (d0 : α) :
    ∀ (cs : List (Option α)) (distinct : List α) (keys : List (Option Nat)),
      (∀ k? ∈ keys, ∀ key, k? = some key → key < distinct.length) →
      (∀ k? ∈ (dictAppendLoop distinct keys cs).2, ∀ key, k? = some key →
          key < (dictAppendLoop distinct keys cs).1.length) ∧
      (dictAppendLoop distinct keys cs).2.length = keys.length + cs.length ∧
      keyCells f d0 (dictAppendLoop distinct keys cs).1 (dictAppendLoop distinct keys cs).2 =
        keyCells f d0 distinct keys ++ cs.map (Option.map f) ∧
      (distinct.Nodup → (dictAppendLoop distinct keys cs).1.Nodup) := by
  intro cs
  induction cs with
  | nil =>
    intro distinct keys hkb
    exact ⟨hkb, by simp [dictAppendLoop], by simp [dictAppendLoop], fun h => h⟩
  | cons c rest ih =>
    intro distinct keys hkb
    cases c with
    | none =>
      have hkb2 : ∀ k? ∈ keys ++ [none], ∀ key, k? = some key → key < distinct.length := by
        intro k? hmem key hkey
        rcases List.mem_append.mp hmem with h | h
        · exact hkb k? h key hkey
        · simp at h; rw [h] at hkey; exact Option.noConfusion hkey
      obtain ⟨ih1, ih2, ih3, ih4⟩ := ih distinct (keys ++ [none]) hkb2
      refine ⟨ih1, ?_, ?_, ih4⟩
      · simpa [Nat.add_assoc, Nat.add_comm 1 rest.length] using ih2
      · rw [show dictAppendLoop distinct keys (none :: rest) =
            dictAppendLoop distinct (keys ++ [none]) rest from rfl]
        rw [ih3]
        unfold keyCells
        simp
    | some v =>
      cases hfind : dictFindKey v distinct with
      | some j =>
        obtain ⟨hj, hjv⟩ := dictFindKey_some v d0 distinct j hfind
        have hkb2 : ∀ k? ∈ keys ++ [some j], ∀ key, k? = some key →
            key < distinct.length := by
          intro k? hmem key hkey
          rcases List.mem_append.mp hmem with h | h
          · exact hkb k? h key hkey
          · simp at h; rw [h] at hkey; injection hkey with h2; rw [← h2]; exact hj
        obtain ⟨ih1, ih2, ih3, ih4⟩ := ih distinct (keys ++ [some j]) hkb2
        have hred : dictAppendLoop distinct keys (some v :: rest) =
            dictAppendLoop distinct (keys ++ [some j]) rest := by
          simp only [dictAppendLoop, hfind]
        have hjv2 : distinct[j]?.getD d0 = v := by
          rw [← List.getD_eq_getElem?_getD]; exact hjv
        refine ⟨hred ▸ ih1, ?_, ?_, hred ▸ ih4⟩
        · rw [hred, ih2]; simp [Nat.add_assoc, Nat.add_comm 1 rest.length]
        · rw [hred, ih3]
          unfold keyCells
          simp [hjv2]
      | none =>
        have hkb2 : ∀ k? ∈ keys ++ [some distinct.length], ∀ key, k? = some key →
            key < (distinct ++ [v]).length := by
          intro k? hmem key hkey
          rcases List.mem_append.mp hmem with h | h
          · have := hkb k? h key hkey
            simp only [List.length_append, List.length_singleton]
            omega
          · simp at h; rw [h] at hkey; injection hkey with h2; rw [← h2]
            simp
        obtain ⟨ih1, ih2, ih3, ih4⟩ := ih (distinct ++ [v]) (keys ++ [some distinct.length]) hkb2
        have hred : dictAppendLoop distinct keys (some v :: rest) =
            dictAppendLoop (distinct ++ [v]) (keys ++ [some distinct.length]) rest := by
          simp only [dictAppendLoop, hfind]
        have hsplit : keyCells f d0 (distinct ++ [v]) (keys ++ [some distinct.length]) =
            keyCells f d0 distinct keys ++ [some (f v)] := by
          unfold keyCells
          rw [List.map_append]
          congr 1
          · have := keyCells_mono f d0 distinct [v] keys hkb
            unfold keyCells at this
            exact this
          · simp [getD_append_right_self]
        refine ⟨hred ▸ ih1, ?_, ?_, ?_⟩
        · rw [hred, ih2]; simp [Nat.add_assoc, Nat.add_comm 1 rest.length]
        · rw [hred, ih3, hsplit]
          simp
        · intro hnd
          rw [hred]
          apply ih4
          rw [List.nodup_append]
          refine ⟨hnd, List.nodup_singleton v, ?_⟩
          intro a ha hav
          simp only [List.mem_singleton] at hav
          exact (dictFindKey_none v distinct hfind) (hav ▸ ha)

end DictSpec

/-- The interning table of a dictionary builder has no duplicate entries
(trivial for other builders). -/
def dictDistinctNodup : Builder → Prop
  | .dictPrimB _ _ distinct _ => distinct.Nodup
  | .dictStrB _ distinct _ => distinct.Nodup
  | _ => True

section ExtendDictSpec

theorem keysBound_iff (keys : List (Option Nat)) (n : Nat) :
    (keys.all (fun k? => k?.all (fun key => decide (key < n))) = true) ↔
      ∀ k? ∈ keys, ∀ key, k? = some key → key < n := by
  rw [List.all_eq_true]
  constructor
  · intro h k? hmem key hkey
    have h2 := h k? hmem
    rw [hkey] at h2
    exact of_decide_eq_true h2
  · intro h k? hmem
    cases k? with
    | none => rfl
    | some key => exact decide_eq_true (h (some key) hmem key rfl)

theorem dictGatherCells {α : Type} (f : α → Cell) (akeys : List (Option Nat))
    (avals : List (Option α)) (idx : List Nat)
    (hidx : ∀ i ∈ idx, i < akeys.length) :
    (idx.map (fun i => (akeys.getD i none).bind (fun key => avals.getD key none))).map
        (Option.map f) =
      idx.map (fun i =>
        (akeys.map (fun k? => k?.bind (fun key =>
          (avals.map (Option.map f)).getD key none))).getD i none) := by
  rw [List.map_map]
  apply List.map_congr_left
  intro i hi
  have h1 : i < akeys.length := hidx i hi
  have h2 : akeys.getD i none = akeys[i] := by
    simp [List.getD_eq_getElem?_getD, List.getElem?_eq_getElem h1]
  rw [List.getD_eq_getElem?_getD, List.getElem?_map, List.getElem?_eq_getElem h1]
  simp only [Option.map_some', Option.getD_some, Function.comp_apply]
  rw [h2]
  cases akeys[i] with
  | none => rfl
  | some key =>
    simp only [Option.some_bind]
    rw [List.getD_eq_getElem?_getD, List.getD_eq_getElem?_getD, List.getElem?_map]
    cases avals[key]? <;> rfl

theorem extendDictStr_spec (dk : DictKey) (distinct : List String)
    (keys akeys : List (Option Nat)) (avals : List (Option String)) (large : Bool)
    (idx : List Nat)
    (hkb : ∀ k? ∈ keys, ∀ key, k? = some key → key < distinct.length)
    (hbound : ∀ k? ∈ akeys, ∀ key, k? = some key → key < avals.length)
    (hvalid : ∀ slot ∈ avals, slot.isSome = true)
    (hidx : ∀ i ∈ idx, i < akeys.length) :
    let cs := idx.map (fun i => (akeys.getD i none).bind (fun key => avals.getD key none))
    extendDictStr (.dictStrB dk distinct keys) (.dict dk akeys (.strA large avals))
        idx dk large =
      .ok (.dictStrB dk (dictAppendLoop distinct keys cs).1 (dictAppendLoop distinct keys cs).2) ∧
    (∀ k? ∈ (dictAppendLoop distinct keys cs).2, ∀ key, k? = some key →
        key < (dictAppendLoop distinct keys cs).1.length) ∧
    (dictAppendLoop distinct keys cs).2.length = keys.length + idx.length ∧
    keyCells Cell.strC "" (dictAppendLoop distinct keys cs).1 (dictAppendLoop distinct keys cs).2 =
      keyCells Cell.strC "" distinct keys ++
        gatherCells (.dict dk akeys (.strA large avals)) idx ∧
    (distinct.Nodup → (dictAppendLoop distinct keys cs).1.Nodup) := by
  intro cs
  have hdec := dictDecodeM_ok akeys avals "" hbound hvalid idx hidx
  obtain ⟨l1, l2, l3, l4⟩ := dictAppendLoop_spec Cell.strC "" cs distinct keys hkb
  refine ⟨?_, l1, ?_, ?_, l4⟩
  · simp only [extendDictStr, hdec]
    rfl
  · rw [l2]; simp [cs]
  · rw [l3]
    congr 1
    unfold gatherCells
    simp only [arrayCells]
    exact dictGatherCells Cell.strC akeys avals idx hidx

theorem extendDict_spec (keyType valueType : DataType) (b : Builder)
    (arr : ArrayData) (idx : List Nat)
    (hb : BuilderWT (.dictionary keyType valueType) b)
    (ha : ArrayWT (.dictionary keyType valueType) arr)
    (hidx : ∀ i ∈ idx, i < arrayLen arr) :
    ∃ b2, extendDict b arr idx keyType valueType = .ok b2 ∧
      BuilderWT (.dictionary keyType valueType) b2 ∧
      builderCells b2 = builderCells b ++ gatherCells arr idx ∧
      builderLen b2 = builderLen b + idx.length ∧
      (dictDistinctNodup b → dictDistinctNodup b2) := by
  cases hb
  case primB k vals hk0 => exact Option.noConfusion hk0
  case dictPrimB dk vk distinct keys _ _ _ =>
    have hk : dictKeyOf keyType = some dk := by assumption
    have hvk : dictValuePrimKind valueType = some vk := by assumption
    have hkb : keys.all (fun k? => k?.all (fun key => decide (key < distinct.length))) = true := by
      assumption
    cases ha
    case prim k2 avals hk0 => exact Option.noConfusion hk0
    case dict dk2 akeys avalues _ _ _ _ =>
      have hk2 : dictKeyOf keyType = some dk2 := by assumption
      have hvwt : ArrayWT valueType avalues := by assumption
      have hvalid : dictValuesAllValid avalues = true := by assumption
      have hbound : akeys.all (fun k? => k?.all (fun key =>
          decide (key < arrayLen avalues))) = true := by assumption
      rw [hk] at hk2
      injection hk2 with hk3
      subst hk3
      cases hvwt <;> try exact Option.noConfusion hvk
      case prim =>
        rename_i k2 avals hk2p hdup1 hdup2 hdup3
        have hagree := dictValuePrimKind_agree valueType vk hvk
        rw [hk2p] at hagree
        injection hagree with hagree2
        subst hagree2
        have hboundP : ∀ k? ∈ akeys, ∀ key, k? = some key → key < avals.length :=
          (keysBound_iff akeys _).mp hbound
        have hvalidP : ∀ slot ∈ avals, slot.isSome = true := by
          intro slot hs
          exact List.all_eq_true.mp hvalid slot hs
        have hidx2 : ∀ i ∈ idx, i < akeys.length := hidx
        have hdec := dictDecodeM_ok akeys avals 0 hboundP hvalidP idx hidx2
        have hkbP : ∀ k? ∈ keys, ∀ key, k? = some key → key < distinct.length :=
          (keysBound_iff keys _).mp hkb
        obtain ⟨l1, l2, l3, l4⟩ :=
          dictAppendLoop_spec Cell.intC 0
            (idx.map (fun i => (akeys.getD i none).bind (fun key => avals.getD key none)))
            distinct keys hkbP
        refine ⟨.dictPrimB dk k2
          (dictAppendLoop distinct keys
            (idx.map (fun i => (akeys.getD i none).bind (fun key => avals.getD key none)))).1
          (dictAppendLoop distinct keys
            (idx.map (fun i => (akeys.getD i none).bind (fun key => avals.getD key none)))).2,
          ?_, ?_, ?_, ?_, ?_⟩
        · simp only [extendDict, hk, hvk, hdec]
          rfl
        · exact .dictPrimB keyType valueType dk k2 _ _ hk hvk
            ((keysBound_iff _ _).mpr l1)
        · show keyCells Cell.intC 0 _ _ = _
          rw [l3]
          congr 1
          unfold gatherCells
          simp only [arrayCells]
          exact dictGatherCells Cell.intC akeys avals idx hidx2
        · show (dictAppendLoop _ _ _).2.length = keys.length + idx.length
          rw [l2]
          simp
        · exact l4
  case dictStrB dk distinct keys _ _ _ =>
    have hk : dictKeyOf keyType = some dk := by assumption
    have hvv : valueType = .utf8 ∨ valueType = .largeUtf8 := by assumption
    have hkb : keys.all (fun k? => k?.all (fun key => decide (key < distinct.length))) = true := by
      assumption
    cases ha
    case prim k2 avals hk0 => exact Option.noConfusion hk0
    case dict dk2 akeys avalues _ _ _ _ =>
      have hk2 : dictKeyOf keyType = some dk2 := by assumption
      have hvwt : ArrayWT valueType avalues := by assumption
      have hvalid : dictValuesAllValid avalues = true := by assumption
      have hbound : akeys.all (fun k? => k?.all (fun key =>
          decide (key < arrayLen avalues))) = true := by assumption
      rw [hk] at hk2
      injection hk2 with hk3
      subst hk3
      have hkbP : ∀ k? ∈ keys, ∀ key, k? = some key → key < distinct.length :=
        (keysBound_iff keys _).mp hkb
      rcases hvv with hvv | hvv <;> subst hvv
      · cases hvwt
        case prim =>
          rename_i k0 vals0 hk0 hdup1 hdup2 hdup3
          exact Option.noConfusion hk0
        case utf8 =>
          rename_i avals hdup1 hdup2 hdup3
          have hboundP : ∀ k? ∈ akeys, ∀ key, k? = some key → key < avals.length :=
            (keysBound_iff akeys _).mp hbound
          have hvalidP : ∀ slot ∈ avals, slot.isSome = true := by
            intro slot hs
            exact List.all_eq_true.mp hvalid slot hs
          have hidx2 : ∀ i ∈ idx, i < akeys.length := hidx
          obtain ⟨m1, m2, m3, m4, m5⟩ :=
            extendDictStr_spec dk distinct keys akeys avals false idx hkbP hboundP
              hvalidP hidx2
          refine ⟨.dictStrB dk
            (dictAppendLoop distinct keys
              (idx.map (fun i => (akeys.getD i none).bind (fun key => avals.getD key none)))).1
            (dictAppendLoop distinct keys
              (idx.map (fun i => (akeys.getD i none).bind (fun key => avals.getD key none)))).2,
            ?_, ?_, ?_, ?_, ?_⟩
          · show extendDict _ _ _ _ _ = _
            simp only [extendDict, hk]
            exact m1
          · exact .dictStrB _ _ dk _ _ hk (Or.inl rfl) ((keysBound_iff _ _).mpr m2)
          · show keyCells Cell.strC "" _ _ = _
            exact m4
          · show (dictAppendLoop _ _ _).2.length = keys.length + idx.length
            exact m3
          · exact m5
      · cases hvwt
        case prim =>
          rename_i k0 vals0 hk0 hdup1 hdup2 hdup3
          exact Option.noConfusion hk0
        case largeUtf8 =>
          rename_i avals hdup1 hdup2 hdup3
          have hboundP : ∀ k? ∈ akeys, ∀ key, k? = some key → key < avals.length :=
            (keysBound_iff akeys _).mp hbound
          have hvalidP : ∀ slot ∈ avals, slot.isSome = true := by
            intro slot hs
            exact List.all_eq_true.mp hvalid slot hs
          have hidx2 : ∀ i ∈ idx, i < akeys.length := hidx
          obtain ⟨m1, m2, m3, m4, m5⟩ :=
            extendDictStr_spec dk distinct keys akeys avals true idx hkbP hboundP
              hvalidP hidx2
          refine ⟨.dictStrB dk
            (dictAppendLoop distinct keys
              (idx.map (fun i => (akeys.getD i none).bind (fun key => avals.getD key none)))).1
            (dictAppendLoop distinct keys
              (idx.map (fun i => (akeys.getD i none).bind (fun key => avals.getD key none)))).2,
            ?_, ?_, ?_, ?_, ?_⟩
          · show extendDict _ _ _ _ _ = _
            simp only [extendDict, hk]
            exact m1
          · exact .dictStrB _ _ dk _ _ hk (Or.inr rfl) ((keysBound_iff _ _).mpr m2)
          · show keyCells Cell.strC "" _ _ = _
            exact m4
          · show (dictAppendLoop _ _ _).2.length = keys.length + idx.length
            exact m3
          · exact m5

end ExtendDictSpec

section GatherLemmas

theorem gather_map_cells {α : Type} (f : α → Cell) (avals : List (Option α))
    (idx : List Nat) :
    idx.map (fun i => (avals.map (Option.map f)).getD i none) =
      (idx.map (fun i => avals.getD i none)).map (Option.map f) := by
  rw [List.map_map]
  apply List.map_congr_left
  intro i _
  exact getD_map_none f avals i

theorem gatherCells_id (a : ArrayData) :
    gatherCells a (List.range (arrayLen a)) = arrayCells a := by
  unfold gatherCells
  rw [← arrayCells_length]
  exact range_map_getD _ _

theorem all_gather {α : Type} (p : Option α → Bool) (avals : List (Option α))
    (idx : List Nat) (hnone : p none = true) (hall : avals.all p = true) :
    (idx.map (fun i => avals.getD i none)).all p = true := by
  rw [List.all_eq_true]
  intro x hx
  rw [List.mem_map] at hx
  obtain ⟨i, _, hi⟩ := hx
  rw [← hi]
  exact all_getD p avals none hnone hall i

theorem rowsWT_get (elem : DataType) :
    ∀ (rows : List (Option ArrayData)) (i : Nat) (slice : ArrayData),
      ArrayWTRows elem rows → rows[i]? = some (some slice) → ArrayWT elem slice := by
  intro rows
  induction rows with
  | nil => intro i slice _ h; simp at h
  | cons r rest ih =>
    intro i slice hwt h
    cases i with
    | zero =>
      simp at h
      cases hwt with
      | consNone _ _ _ => exact Option.noConfusion h
      | consSome _ slice2 _ hslice _ =>
        rw [← Option.some.injEq] at h
        injection h with h2
        injection h2 with h3
        rw [← h3]
        exact hslice
    | succ j =>
      have h2 : rest[j]? = some (some slice) := by simpa using h
      cases hwt with
      | consNone _ _ hrest => exact ih j slice hrest h2
      | consSome _ _ _ _ hrest => exact ih j slice hrest h2

theorem arrayCellsRows_getD :
    ∀ (rows : List (Option ArrayData)) (i : Nat) (row? : Option ArrayData),
      rows[i]? = some row? →
      (arrayCellsRows rows).getD i none =
        row?.map (fun slice => .listC (arrayCells slice)) := by
  intro rows
  induction rows with
  | nil => intro i row? h; simp at h
  | cons r rest ih =>
    intro i row? h
    cases i with
    | zero =>
      simp at h
      cases r with
      | none =>
        rw [← h]
        rfl
      | some slice =>
        rw [← h]
        rfl
    | succ j =>
      have h2 : rest[j]? = some row? := by simpa using h
      cases r <;> simpa [arrayCellsRows, List.getD_cons_succ] using ih j row? h2

theorem dataTypeOf_leaf (elem : DataType) (lk : LeafKind) (a : ArrayData)
    (hlk : listChildKind elem = some lk) (ha : ArrayWT elem a) :
    dataTypeOf a = elem := by
  cases ha <;> try exact Option.noConfusion hlk
  case prim k vals hk => exact primDT_primKindOf elem k hk
  case utf8 vals => rfl
  case largeUtf8 vals => rfl
  case binary vals => rfl
  case largeBinary vals => rfl
  case decimal128 p s vals hfits => rfl
  case decimal256 p s vals hfits => rfl

theorem nullOKFields_of_extOKFields :
    ∀ fields : List (String × DataType),
      extOKFields fields = true → nullOKFields fields = true := by
  intro fields
  induction fields with
  | nil => intro _; rfl
  | cons f fs ih =>
    intro h
    have h2 : ((extOK f.2 && nullOK f.2) && extOKFields fs) = true := h
    rw [Bool.and_eq_true, Bool.and_eq_true] at h2
    show (nullOK f.2 && nullOKFields fs) = true
    rw [Bool.and_eq_true]
    exact ⟨h2.1.2, ih h2.2⟩

theorem zipSnoc_getD (achildren : List ArrayData) (i j : Nat) :
    ∀ ccs : List (List (Option Cell)), ccs.length = achildren.length →
      (∀ cc ∈ ccs, j < cc.length) →
      (List.zipWith (fun cc a => cc ++ [(arrayCells a).getD i none]) ccs achildren).map
          (fun cc => cc.getD j none) =
        ccs.map (fun cc => cc.getD j none) := by
  induction achildren with
  | nil =>
    intro ccs hlen _
    rw [List.length_nil, List.length_eq_zero] at hlen
    subst hlen
    rfl
  | cons a as ih =>
    intro ccs hlen hj
    cases ccs with
    | nil => rfl
    | cons cc ccs2 =>
      simp only [List.zipWith_cons_cons, List.map_cons]
      congr 1
      · exact getD_append_left cc _ none j (hj cc (by simp))
      · exact ih ccs2 (by simpa using hlen) (fun c hc => hj c (by simp [hc]))

theorem mapSnoc_getD (x : Option Cell) (j : Nat) :
    ∀ ccs : List (List (Option Cell)), (∀ cc ∈ ccs, j < cc.length) →
      (ccs.map (fun cc => cc ++ [x])).map (fun cc => cc.getD j none) =
        ccs.map (fun cc => cc.getD j none) := by
  intro ccs hj
  rw [List.map_map]
  apply List.map_congr_left
  intro cc hcc
  exact getD_append_left cc _ none j (hj cc hcc)

theorem arrayWTChildren_len : ∀ (m : Nat) (fields : List (String × DataType))
    (achildren : List ArrayData), ArrayWTChildren m fields achildren →
    ∀ a ∈ achildren, arrayLen a = m := by
  intro m fields
  induction fields with
  | nil =>
    intro achildren h
    cases h
    intro a ha
    simp at ha
  | cons f fs ih =>
    intro achildren h
    cases h with
    | cons _ _ _ c cs hc hlen hrest =>
      intro a ha
      rcases List.mem_cons.mp ha with ha | ha
      · rw [ha]; exact hlen
      · exact ih cs hrest a ha

theorem arrayCellsChildren_length :
    ∀ achildren : List ArrayData,
      (arrayCellsChildren achildren).length = achildren.length := by
  intro achildren
  induction achildren with
  | nil => rfl
  | cons c cs ih => simp [arrayCellsChildren, ih]

end GatherLemmas

section LoopSpecs

theorem builderWTChildren_length : ∀ (n : Nat) (fields : List (String × DataType))
    (children : List Builder), BuilderWTChildren n fields children →
    children.length = fields.length := by
  intro n fields
  induction fields with
  | nil => intro children h; cases h; rfl
  | cons f fs ih =>
    intro children h
    cases h with
    | cons _ _ _ c cs hc hlen hrest => simp [ih cs hrest]

theorem arrayWTChildren_length : ∀ (m : Nat) (fields : List (String × DataType))
    (achildren : List ArrayData), ArrayWTChildren m fields achildren →
    achildren.length = fields.length := by
  intro m fields
  induction fields with
  | nil => intro achildren h; cases h; rfl
  | cons f fs ih =>
    intro achildren h
    cases h with
    | cons _ _ _ c cs hc hlen hrest => simp [ih cs hrest]

theorem builderCellsChildren_length (children : List Builder) :
    (builderCellsChildren children).length = children.length := by
  rw [builderCellsChildren_map, List.length_map]

theorem zipSnoc_getD_last (i n : Nat) :
    ∀ (ccs : List (List (Option Cell))) (as2 : List ArrayData),
      ccs.length = as2.length → (∀ cc ∈ ccs, cc.length = n) →
      (List.zipWith (fun cc a => cc ++ [(arrayCells a).getD i none]) ccs as2).map
          (fun cc => cc.getD n none) =
        as2.map (fun a => (arrayCells a).getD i none) := by
  intro ccs
  induction ccs with
  | nil =>
    intro as2 hlen _
    have h2 : as2 = [] := List.length_eq_zero.mp hlen.symm
    subst h2
    rfl
  | cons cc ccs2 ih =>
    intro as2 hlen hn
    cases as2 with
    | nil => simp at hlen
    | cons a as3 =>
      simp only [List.zipWith_cons_cons, List.map_cons]
      congr 1
      · rw [← hn cc (by simp)]
        exact getD_append_right_self cc _ none
      · exact ih as3 (by simpa using hlen) (fun c hc => hn c (by simp [hc]))

theorem extendFieldsGo_spec
    (ext : Builder → ArrayData → List Nat → DataType → Except Err Builder) (i : Nat) :
    ∀ (fields : List (String × DataType)) (children : List Builder)
      (achildren : List ArrayData) (n m : Nat),
      BuilderWTChildren n fields children → ArrayWTChildren m fields achildren →
      extOKFields fields = true → i < m →
      (∀ (dt : DataType) (c : Builder) (a : ArrayData), a ∈ achildren →
        ArrayWT dt a → BuilderWT dt c → extOK dt = true → (∀ j ∈ [i], j < arrayLen a) →
        ∃ c2, ext c a [i] dt = .ok c2 ∧ BuilderWT dt c2 ∧
          builderCells c2 = builderCells c ++ gatherCells a [i] ∧
          builderLen c2 = builderLen c + 1) →
      ∃ children2, extendFieldsGo ext i fields children achildren = .ok children2 ∧
        BuilderWTChildren (n + 1) fields children2 ∧
        builderCellsChildren children2 =
          List.zipWith (fun cc a => cc ++ [(arrayCells a).getD i none])
            (builderCellsChildren children) achildren := by
  intro fields
  induction fields with
  | nil =>
    intro children achildren n m hbc hac _ _ _
    cases hbc
    cases hac
    exact ⟨[], rfl, .nil _, rfl⟩
  | cons f fs ih =>
    intro children achildren n m hbc hac hok hi hext
    cases hbc with
    | cons _ _ _ c cs hc hclen hcrest =>
      cases hac with
      | cons _ _ _ a as2 haw halen harest =>
        have hok2 : ((extOK f.2 && nullOK f.2) && extOKFields fs) = true := hok
        rw [Bool.and_eq_true, Bool.and_eq_true] at hok2
        obtain ⟨c2, he1, hw1, hcell1, hlen1⟩ :=
          hext f.2 c a (by simp) haw hc hok2.1.1
            (by intro j hj; simp at hj; rw [hj, halen]; exact hi)
        obtain ⟨children2, he2, hw2, hcell2⟩ :=
          ih cs as2 n m hcrest harest hok2.2 hi
            (fun dt c0 a0 ha0 => hext dt c0 a0 (by simp [ha0]))
        refine ⟨c2 :: children2, ?_, ?_, ?_⟩
        · simp only [extendFieldsGo, he1, he2]
          rfl
        · exact .cons (n + 1) f fs c2 children2 hw1 (by rw [hlen1, hclen]) hw2
        · simp only [builderCellsChildren, List.zipWith_cons_cons]
          rw [hcell1, hcell2]
          rfl

theorem extendStructGo_spec
    (ext : Builder → ArrayData → List Nat → DataType → Except Err Builder)
    (bfields fields afields : List (String × DataType)) (avalid : List Bool)
    (achildren : List ArrayData)
    (hac : ArrayWTChildren avalid.length fields achildren)
    (hok : extOKFields fields = true)
    (hext : ∀ (i : Nat) (dt : DataType) (c : Builder) (a : ArrayData), a ∈ achildren →
      ArrayWT dt a → BuilderWT dt c → extOK dt = true → (∀ j ∈ [i], j < arrayLen a) →
      ∃ c2, ext c a [i] dt = .ok c2 ∧ BuilderWT dt c2 ∧
        builderCells c2 = builderCells c ++ gatherCells a [i] ∧
        builderLen c2 = builderLen c + 1) :
    ∀ (idx : List Nat) (children : List Builder) (validity : List Bool),
      BuilderWTChildren validity.length fields children →
      (∀ i ∈ idx, i < avalid.length) →
      ∃ children2 validity2,
        extendStructGo ext bfields fields avalid achildren children validity idx =
          .ok (.structB bfields children2 validity2) ∧
        BuilderWTChildren validity2.length fields children2 ∧
        validity2.length = validity.length + idx.length ∧
        structRows (builderCellsChildren children2) validity2 =
          structRows (builderCellsChildren children) validity ++
            gatherCells (.structA afields avalid achildren) idx := by
  intro idx
  induction idx with
  | nil =>
    intro children validity hbc _
    exact ⟨children, validity, rfl, hbc, by simp, by simp [gatherCells]⟩
  | cons i rest ih =>
    intro children validity hbc hrange
    have hi : i < avalid.length := hrange i (by simp)
    have hcclen : ∀ cc ∈ builderCellsChildren children, cc.length = validity.length :=
      childrenCells_length validity.length fields children hbc
    have hccl : (builderCellsChildren children).length = achildren.length := by
      rw [builderCellsChildren_length, builderWTChildren_length _ _ _ hbc,
        ← arrayWTChildren_length _ _ _ hac]
    have hsrc : (arrayCells (.structA afields avalid achildren)).getD i none =
        (if avalid.getD i false then
          some (.structC (achildren.map (fun a => (arrayCells a).getD i none)))
        else none) := by
      show (structRows (arrayCellsChildren achildren) avalid).getD i none = _
      rw [structRows_getD _ _ _ hi]
      rw [arrayCellsChildren_map, List.map_map]
      rfl
    have hgd : avalid.getD i false = avalid[i] := by
      simp [List.getD_eq_getElem?_getD, List.getElem?_eq_getElem hi]
    cases hv : avalid[i] with
    | true =>
      obtain ⟨childrenM, he1, hw1, hcell1⟩ :=
        extendFieldsGo_spec ext i fields children achildren validity.length
          avalid.length hbc hac hok hi (hext i)
      have hw1b : BuilderWTChildren (validity ++ [true]).length fields childrenM := by
        rw [List.length_append, List.length_singleton]
        exact hw1
      obtain ⟨children2, validity2, he2, hw2, hlen2, hcell2⟩ :=
        ih childrenM (validity ++ [true]) hw1b (fun j hj => hrange j (by simp [hj]))
      refine ⟨children2, validity2, ?_, hw2, ?_, ?_⟩
      · simp only [extendStructGo, List.getElem?_eq_getElem hi, hv, he1]
        show extendStructGo ext bfields fields avalid achildren childrenM
          (validity ++ [true]) rest = _
        exact he2
      · rw [hlen2]; simp [Nat.add_assoc, Nat.add_comm 1 rest.length]
      · have hstab : ∀ j, j < validity.length →
            (List.zipWith (fun cc a => cc ++ [(arrayCells a).getD i none])
              (builderCellsChildren children) achildren).map (fun cc => cc.getD j none) =
            (builderCellsChildren children).map (fun cc => cc.getD j none) := by
          intro j hj
          exact zipSnoc_getD achildren i j (builderCellsChildren children) hccl
            (fun cc hcc => by rw [hcclen cc hcc]; exact hj)
        have hlast := zipSnoc_getD_last i validity.length
          (builderCellsChildren children) achildren hccl hcclen
        rw [hcell2, hcell1]
        rw [structRows_snoc (builderCellsChildren children) _ validity true hstab]
        rw [List.append_assoc]
        congr 1
        rw [List.singleton_append]
        show _ :: _ = gatherCells (.structA afields avalid achildren) (i :: rest)
        unfold gatherCells
        rw [List.map_cons]
        congr 1
        rw [hsrc, hgd, hv, hlast]
    | false =>
      obtain ⟨childrenM, he1, hw1, hcell1⟩ :=
        appendNullFields_spec fields validity.length children hbc
          (nullOKFields_of_extOKFields fields hok)
      have hw1b : BuilderWTChildren (validity ++ [false]).length fields childrenM := by
        rw [List.length_append, List.length_singleton]
        exact hw1
      obtain ⟨children2, validity2, he2, hw2, hlen2, hcell2⟩ :=
        ih childrenM (validity ++ [false]) hw1b (fun j hj => hrange j (by simp [hj]))
      refine ⟨children2, validity2, ?_, hw2, ?_, ?_⟩
      · simp only [extendStructGo, List.getElem?_eq_getElem hi, hv, he1]
        show extendStructGo ext bfields fields avalid achildren childrenM
          (validity ++ [false]) rest = _
        exact he2
      · rw [hlen2]; simp [Nat.add_assoc, Nat.add_comm 1 rest.length]
      · have hstab : ∀ j, j < validity.length →
            ((builderCellsChildren children).map (fun cc => cc ++ [none])).map
              (fun cc => cc.getD j none) =
            (builderCellsChildren children).map (fun cc => cc.getD j none) := by
          intro j hj
          exact mapSnoc_getD none j (builderCellsChildren children)
            (fun cc hcc => by rw [hcclen cc hcc]; exact hj)
        rw [hcell2, hcell1]
        rw [structRows_snoc (builderCellsChildren children) _ validity false hstab]
        rw [List.append_assoc]
        congr 1
        rw [List.singleton_append]
        show _ :: _ = gatherCells (.structA afields avalid achildren) (i :: rest)
        unfold gatherCells
        rw [List.map_cons]
        congr 1
        rw [hsrc, hgd, hv]
        rfl

end LoopSpecs

section ListLoopSpec

theorem listChildKind_prim : ∀ (dataType : DataType) (k : PrimKind),
    primKindOf dataType = some k → listChildKind dataType = some (.prim k) := by
  intro dataType k h
  cases dataType <;>
    first
    | exact Option.noConfusion h
    | (have h2 : some _ = some k := h
       injection h2 with h3
       subst h3
       rfl)
    | (rename_i u
       cases u <;>
         first
         | exact Option.noConfusion h
         | (have h2 : some _ = some k := h
            injection h2 with h3
            subst h3
            rfl))

theorem leafMatches_of_WT (elem : DataType) (lk : LeafKind) (b : Builder)
    (hlk : listChildKind elem = some lk) (hb : BuilderWT elem b) :
    leafBuilderMatches lk b = true := by
  cases hb <;> try exact Option.noConfusion hlk
  case primB k vals hk =>
    rw [listChildKind_prim _ k hk] at hlk
    injection hlk with h2
    subst h2
    simp [leafBuilderMatches]
  case utf8 vals =>
    have h2 : some (LeafKind.str false) = some lk := hlk
    injection h2 with h3
    subst h3
    rfl
  case largeUtf8 vals =>
    have h2 : some (LeafKind.str true) = some lk := hlk
    injection h2 with h3
    subst h3
    rfl
  case binary vals =>
    have h2 : some (LeafKind.bin false) = some lk := hlk
    injection h2 with h3
    subst h3
    rfl
  case largeBinary vals =>
    have h2 : some (LeafKind.bin true) = some lk := hlk
    injection h2 with h3
    subst h3
    rfl
  case decimal128 p s vals hfits =>
    have h2 : some (LeafKind.dec .d128) = some lk := hlk
    injection h2 with h3
    subst h3
    rfl
  case decimal256 p s vals hfits =>
    have h2 : some (LeafKind.dec .d256) = some lk := hlk
    injection h2 with h3
    subst h3
    rfl

theorem extendListGo_spec
    (ext : Builder → ArrayData → List Nat → DataType → Except Err Builder)
    (elem : DataType) (lk : LeafKind) (rows : List (Option ArrayData))
    (hlk : listChildKind elem = some lk)
    (hrowsWT : ArrayWTRows elem rows)
    (hext : ∀ (slice : ArrayData) (child : Builder), some slice ∈ rows →
      ArrayWT elem slice → BuilderWT elem child →
      ∃ child2, ext child slice (List.range (arrayLen slice)) (dataTypeOf slice) = .ok child2 ∧
        BuilderWT elem child2 ∧
        builderCells child2 = builderCells child ++ arrayCells slice ∧
        builderLen child2 = builderLen child + arrayLen slice) :
    ∀ (idx : List Nat) (child : Builder) (ends : List Nat) (valid : List Bool),
      BuilderWT elem child →
      ends.length = valid.length →
      listEndsOK ends (builderLen child) = true →
      (∀ i ∈ idx, i < rows.length) →
      ∃ child2 ends2 valid2,
        extendListGo ext rows child ends valid idx = .ok (.listB child2 ends2 valid2) ∧
        BuilderWT elem child2 ∧
        ends2.length = valid2.length ∧
        listEndsOK ends2 (builderLen child2) = true ∧
        valid2.length = valid.length + idx.length ∧
        listRowCells (builderCells child2) 0 ends2 valid2 =
          listRowCells (builderCells child) 0 ends valid ++
            gatherCells (.listA elem rows) idx := by
  intro idx
  induction idx with
  | nil =>
    intro child ends valid hchild hlen hendsOK _
    exact ⟨child, ends, valid, rfl, hchild, hlen, hendsOK, by simp, by simp [gatherCells]⟩
  | cons i rest ih =>
    intro child ends valid hchild hlen hendsOK hrange
    have hi : i < rows.length := hrange i (by simp)
    have hcc : (builderCells child).length = builderLen child :=
      builderLen_cells elem child hchild
    have hbound : ∀ x ∈ ends, x ≤ (builderCells child).length := by
      rw [hcc]
      exact listEndsOK_bound ends _ hendsOK
    have hlast : ends.getLastD 0 = builderLen child := listEndsOK_last ends _ hendsOK
    cases hr : rows[i] with
    | none =>
      have hr? : rows[i]? = some none := by
        rw [List.getElem?_eq_getElem hi, hr]
      obtain ⟨child2, ends2, valid2, he2, hw2, hl2, ho2, hc2, hcell2⟩ :=
        ih child (ends ++ [builderLen child]) (valid ++ [false]) hchild
          (by simp [hlen])
          (listEndsOK_grow ends _ _ hendsOK (Nat.le_refl _))
          (fun j hj => hrange j (by simp [hj]))
      refine ⟨child2, ends2, valid2, ?_, hw2, hl2, ho2, ?_, ?_⟩
      · simp only [extendListGo, hr?]
        exact he2
      · rw [hc2]; simp [Nat.add_assoc, Nat.add_comm 1 rest.length]
      · rw [hcell2]
        rw [listRowCells_snoc _ _ _ _ _ _ hlen]
        rw [List.append_assoc]
        congr 1
        rw [List.singleton_append]
        show _ :: _ = gatherCells (.listA elem rows) (i :: rest)
        unfold gatherCells
        rw [List.map_cons]
        congr 1
        show none = (arrayCells (.listA elem rows)).getD i none
        rw [show arrayCells (.listA elem rows) = arrayCellsRows rows from rfl]
        rw [arrayCellsRows_getD rows i none hr?]
        rfl
    | some slice =>
      have hr? : rows[i]? = some (some slice) := by
        rw [List.getElem?_eq_getElem hi, hr]
      have hmem : some slice ∈ rows := by
        have := List.getElem_mem hi
        rw [hr] at this
        exact this
      have hsliceWT : ArrayWT elem slice := rowsWT_get elem rows i slice hrowsWT hr?
      obtain ⟨childM, heM, hwM, hcellM, hlenM⟩ := hext slice child hmem hsliceWT hchild
      obtain ⟨child2, ends2, valid2, he2, hw2, hl2, ho2, hc2, hcell2⟩ :=
        ih childM (ends ++ [builderLen childM]) (valid ++ [true]) hwM
          (by simp [hlen])
          (listEndsOK_grow ends _ _ hendsOK (by rw [hlenM]; exact Nat.le_add_right _ _))
          (fun j hj => hrange j (by simp [hj]))
      refine ⟨child2, ends2, valid2, ?_, hw2, hl2, ho2, ?_, ?_⟩
      · simp only [extendListGo, hr?, heM]
        exact he2
      · rw [hc2]; simp [Nat.add_assoc, Nat.add_comm 1 rest.length]
      · rw [hcell2]
        rw [listRowCells_snoc _ _ _ _ _ _ hlen]
        rw [hcellM]
        rw [listRowCells_stable _ _ ends valid 0 (Nat.zero_le _) hbound]
        rw [List.append_assoc]
        congr 1
        rw [List.singleton_append]
        show _ :: _ = gatherCells (.listA elem rows) (i :: rest)
        unfold gatherCells
        rw [List.map_cons]
        congr 1
        · rw [show arrayCells (.listA elem rows) = arrayCellsRows rows from rfl]
          rw [arrayCellsRows_getD rows i (some slice) hr?]
          rw [hlast, ← hcc]
          rw [List.drop_left]
          have hsc : (arrayCells slice).length = arrayLen slice := arrayCells_length slice
          rw [hlenM, hcc, Nat.add_sub_cancel_left]
          rw [← hsc, List.take_length]
          rfl
  end ListLoopSpec

section ExtendSpec

theorem getD_replicate {α : Type} (a : α) : ∀ (n i : Nat),
    (List.replicate n a).getD i a = a := by
  intro n
  induction n with
  | zero => intro i; cases i <;> rfl
  | succ m ih =>
    intro i
    cases i with
    | zero => rfl
    | succ j => exact ih j

theorem gatherCells_nullA (len : Nat) (idx : List Nat) :
    gatherCells (.nullA len) idx = List.replicate idx.length none := by
  unfold gatherCells
  induction idx with
  | nil => rfl
  | cons i rest ih =>
    rw [List.map_cons, ih, List.length_cons, List.replicate_succ]
    congr 1
    exact getD_replicate none len i

theorem primCells_append (k : PrimKind) (vals avals : List (Option Int)) (idx : List Nat) :
    builderCells (.primB k (vals ++ idx.map (fun i => avals.getD i none))) =
      builderCells (.primB k vals) ++ gatherCells (.prim k avals) idx := by
  show (vals ++ idx.map fun i => avals.getD i none).map (Option.map Cell.intC) =
    vals.map (Option.map Cell.intC) ++
      idx.map (fun i => (avals.map (Option.map Cell.intC)).getD i none)
  rw [List.map_append, gather_map_cells]

theorem primLen_append (k : PrimKind) (vals avals : List (Option Int)) (idx : List Nat) :
    builderLen (.primB k (vals ++ idx.map (fun i => avals.getD i none))) =
      builderLen (.primB k vals) + idx.length := by
  show (vals ++ idx.map fun i => avals.getD i none).length = vals.length + idx.length
  rw [List.length_append, List.length_map]

theorem builder_extendF_prim_eq (fuel : Nat) (dt : DataType) (k : PrimKind)
    (vals avals : List (Option Int)) (idx : List Nat)
    (hk : primKindOf dt = some k) (hidx : ∀ i ∈ idx, i < avals.length) :
    builder_extendF (fuel + 1) (.primB k vals) (.prim k avals) idx dt =
      .ok (.primB k (vals ++ idx.map (fun i => avals.getD i none))) := by
  revert hk
  cases dt <;>
    first
    | (intro hk; exact Option.noConfusion hk)
    | (intro hk
       have h2 : some _ = some k := hk
       injection h2 with h3
       subst h3
       simp only [builder_extendF, primKindOf, gatherM_ok avals none idx hidx]
       rfl)
    | (rename_i u
       cases u <;> intro hk <;>
         first
         | exact Option.noConfusion hk
         | (have h2 : some _ = some k := hk
            injection h2 with h3
            subst h3
            simp only [builder_extendF, primKindOf, gatherM_ok avals none idx hidx]
            rfl))

theorem extOK_of_listChildKind (elem : DataType) (lk : LeafKind)
    (h : listChildKind elem = some lk) : extOK elem = true := by
  cases elem <;> first | rfl | exact Option.noConfusion h

theorem rowsDepth_mem : ∀ (rows : List (Option ArrayData)) (slice : ArrayData),
    some slice ∈ rows → arrayDepth slice ≤ rowsDepth rows := by
  intro rows
  induction rows with
  | nil => intro slice h; simp at h
  | cons r rest ih =>
    intro slice h
    rcases List.mem_cons.mp h with h2 | h2
    · subst h2
      exact le_max_left _ _
    · cases r with
      | none => exact ih slice h2
      | some s2 => exact le_trans (ih slice h2) (le_max_right _ _)

theorem childrenDepth_mem : ∀ (cs : List ArrayData) (a : ArrayData),
    a ∈ cs → arrayDepth a ≤ childrenDepth cs := by
  intro cs
  induction cs with
  | nil => intro a h; simp at h
  | cons c cs2 ih =>
    intro a h
    rcases List.mem_cons.mp h with h2 | h2
    · subst h2
      exact le_max_left _ _
    · exact le_trans (ih a h2) (le_max_right _ _)

end ExtendSpec

section ExtendMain

theorem builder_extendF_spec : ∀ (fuel : Nat) (arr : ArrayData),
    arrayDepth arr < fuel →
    ∀ (dataType : DataType) (b : Builder) (idx : List Nat),
      BuilderWT dataType b → ArrayWT dataType arr → extOK dataType = true →
      (∀ i ∈ idx, i < arrayLen arr) →
      ∃ b2, builder_extendF fuel b arr idx dataType = .ok b2 ∧
        BuilderWT dataType b2 ∧
        builderCells b2 = builderCells b ++ gatherCells arr idx ∧
        builderLen b2 = builderLen b + idx.length := by
  intro fuel
  induction fuel with
  | zero => intro arr h; exact absurd h (Nat.not_lt_zero _)
  | succ fuel ih =>
    intro arr hdepth dataType b idx hb ha hok hidx
    cases ha with
    | nullA len =>
      have hb2 : BuilderWT .null b := by assumption
      cases hb2 with
      | primB dt0 k1 vals hk0 => exact Option.noConfusion hk0
      | nullB blen =>
        refine ⟨.nullB (blen + idx.length), rfl, .nullB _, ?_, rfl⟩
        rw [gatherCells_nullA]
        show List.replicate (blen + idx.length) (none : Option Cell) =
          List.replicate blen none ++ List.replicate idx.length none
        rw [List.replicate_add]
    | prim dt k avals hk =>
      have hb2 : BuilderWT dataType b := by assumption
      have hidx3 : ∀ i ∈ idx, i < arrayLen (.prim k avals) := by assumption
      revert hk
      cases hb2 <;> intro hk
      case primB k1 vals hk0 =>
        rw [hk] at hk0
        injection hk0 with hkk
        subst hkk
        refine ⟨.primB k (vals ++ idx.map (fun i => avals.getD i none)), ?_, ?_, ?_, ?_⟩
        · exact builder_extendF_prim_eq fuel dataType k vals avals idx hk hidx3
        · exact .primB dataType k _ hk
        · exact primCells_append k vals avals idx
        · exact primLen_append k vals avals idx
      all_goals exact Option.noConfusion hk
    | utf8 avals =>
      have hb2 : BuilderWT .utf8 b := by assumption
      have hidx3 : ∀ i ∈ idx, i < arrayLen (.strA false avals) := by assumption
      cases hb2 with
      | primB dt0 k1 vals hk0 => exact Option.noConfusion hk0
      | utf8 vals =>
        refine ⟨.strB false (vals ++ idx.map (fun i => avals.getD i none)), ?_, .utf8 _, ?_, ?_⟩
        · simp only [builder_extendF, gatherM_ok avals none idx hidx3]
          rfl
        · show (vals ++ idx.map fun i => avals.getD i none).map (Option.map Cell.strC) =
            vals.map (Option.map Cell.strC) ++
              idx.map (fun i => (avals.map (Option.map Cell.strC)).getD i none)
          rw [List.map_append, gather_map_cells]
        · show (vals ++ idx.map fun i => avals.getD i none).length = vals.length + idx.length
          rw [List.length_append, List.length_map]
    | largeUtf8 avals =>
      have hb2 : BuilderWT .largeUtf8 b := by assumption
      have hidx3 : ∀ i ∈ idx, i < arrayLen (.strA true avals) := by assumption
      cases hb2 with
      | primB dt0 k1 vals hk0 => exact Option.noConfusion hk0
      | largeUtf8 vals =>
        refine ⟨.strB true (vals ++ idx.map (fun i => avals.getD i none)), ?_, .largeUtf8 _, ?_, ?_⟩
        · simp only [builder_extendF, gatherM_ok avals none idx hidx3]
          rfl
        · show (vals ++ idx.map fun i => avals.getD i none).map (Option.map Cell.strC) =
            vals.map (Option.map Cell.strC) ++
              idx.map (fun i => (avals.map (Option.map Cell.strC)).getD i none)
          rw [List.map_append, gather_map_cells]
        · show (vals ++ idx.map fun i => avals.getD i none).length = vals.length + idx.length
          rw [List.length_append, List.length_map]
    | binary avals =>
      have hb2 : BuilderWT .binary b := by assumption
      have hidx3 : ∀ i ∈ idx, i < arrayLen (.binA false avals) := by assumption
      cases hb2 with
      | primB dt0 k1 vals hk0 => exact Option.noConfusion hk0
      | binary vals =>
        refine ⟨.binB false (vals ++ idx.map (fun i => avals.getD i none)), ?_, .binary _, ?_, ?_⟩
        · simp only [builder_extendF, gatherM_ok avals none idx hidx3]
          rfl
        · show (vals ++ idx.map fun i => avals.getD i none).map (Option.map Cell.binC) =
            vals.map (Option.map Cell.binC) ++
              idx.map (fun i => (avals.map (Option.map Cell.binC)).getD i none)
          rw [List.map_append, gather_map_cells]
        · show (vals ++ idx.map fun i => avals.getD i none).length = vals.length + idx.length
          rw [List.length_append, List.length_map]
    | largeBinary avals =>
      have hb2 : BuilderWT .largeBinary b := by assumption
      have hidx3 : ∀ i ∈ idx, i < arrayLen (.binA true avals) := by assumption
      cases hb2 with
      | primB dt0 k1 vals hk0 => exact Option.noConfusion hk0
      | largeBinary vals =>
        refine ⟨.binB true (vals ++ idx.map (fun i => avals.getD i none)), ?_, .largeBinary _, ?_, ?_⟩
        · simp only [builder_extendF, gatherM_ok avals none idx hidx3]
          rfl
        · show (vals ++ idx.map fun i => avals.getD i none).map (Option.map Cell.binC) =
            vals.map (Option.map Cell.binC) ++
              idx.map (fun i => (avals.map (Option.map Cell.binC)).getD i none)
          rw [List.map_append, gather_map_cells]
        · show (vals ++ idx.map fun i => avals.getD i none).length = vals.length + idx.length
          rw [List.length_append, List.length_map]
    | decimal128 p s avals hafits =>
      have hb2 : BuilderWT (.decimal128 p s) b := by assumption
      have hidx3 : ∀ i ∈ idx, i < arrayLen (.dec .d128 p s avals) := by assumption
      cases hb2 with
      | primB dt0 k1 vals hk0 => exact Option.noConfusion hk0
      | decimal128 p2 s2 vals hbfits =>
        have hgfits : (idx.map (fun i => avals.getD i none)).all
            (fun v? => v?.all (decimalFits p)) = true :=
          all_gather _ avals idx rfl hafits
        refine ⟨.decB .d128 p s (vals ++ idx.map (fun i => avals.getD i none)), ?_, ?_, ?_, ?_⟩
        · simp only [builder_extendF, gatherM_ok avals none idx hidx3]
          rfl
        · exact .decimal128 p s _ (by rw [List.all_append, hbfits, hgfits]; rfl)
        · show (vals ++ idx.map fun i => avals.getD i none).map (Option.map Cell.intC) =
            vals.map (Option.map Cell.intC) ++
              idx.map (fun i => (avals.map (Option.map Cell.intC)).getD i none)
          rw [List.map_append, gather_map_cells]
        · show (vals ++ idx.map fun i => avals.getD i none).length = vals.length + idx.length
          rw [List.length_append, List.length_map]
    | decimal256 p s avals hafits =>
      have hb2 : BuilderWT (.decimal256 p s) b := by assumption
      have hidx3 : ∀ i ∈ idx, i < arrayLen (.dec .d256 p s avals) := by assumption
      cases hb2 with
      | primB dt0 k1 vals hk0 => exact Option.noConfusion hk0
      | decimal256 p2 s2 vals hbfits =>
        have hgfits : (idx.map (fun i => avals.getD i none)).all
            (fun v? => v?.all (decimalFits p)) = true :=
          all_gather _ avals idx rfl hafits
        refine ⟨.decB .d256 p s (vals ++ idx.map (fun i => avals.getD i none)), ?_, ?_, ?_, ?_⟩
        · simp only [builder_extendF, gatherM_ok avals none idx hidx3]
          rfl
        · exact .decimal256 p s _ (by rw [List.all_append, hbfits, hgfits]; rfl)
        · show (vals ++ idx.map fun i => avals.getD i none).map (Option.map Cell.intC) =
            vals.map (Option.map Cell.intC) ++
              idx.map (fun i => (avals.map (Option.map Cell.intC)).getD i none)
          rw [List.map_append, gather_map_cells]
        · show (vals ++ idx.map fun i => avals.getD i none).length = vals.length + idx.length
          rw [List.length_append, List.length_map]
    | dict keyType valueType dk keys values hdk hvwt hvv hkb =>
      have hb2 : BuilderWT (.dictionary keyType valueType) b := by assumption
      have hidx3 : ∀ i ∈ idx, i < arrayLen (.dict dk keys values) := by assumption
      obtain ⟨b2, he, hw, hc, hl, _⟩ :=
        extendDict_spec keyType valueType b (.dict dk keys values) idx hb2
          (.dict keyType valueType dk keys values hdk hvwt hvv hkb) hidx3
      exact ⟨b2, he, hw, hc, hl⟩
    | listA elem rows hrows =>
      have hb2 : BuilderWT (.list elem) b := by assumption
      have hidx3 : ∀ i ∈ idx, i < arrayLen (.listA elem rows) := by assumption
      have hdepth2 : arrayDepth (.listA elem rows) < fuel + 1 := by assumption
      cases hb2 with
      | primB dt0 k1 vals hk0 => exact Option.noConfusion hk0
      | listB elem2 lk child ends valid hlk hmatch hchild hlen hends =>
        have hokElem : extOK elem = true := extOK_of_listChildKind elem lk hlk
        have hext : ∀ (slice : ArrayData) (c : Builder), some slice ∈ rows →
            ArrayWT elem slice → BuilderWT elem c →
            ∃ c2, builder_extendF fuel c slice (List.range (arrayLen slice))
                (dataTypeOf slice) = .ok c2 ∧
              BuilderWT elem c2 ∧
              builderCells c2 = builderCells c ++ arrayCells slice ∧
              builderLen c2 = builderLen c + arrayLen slice := by
          intro slice c hmem hsw hcw
          have hd : arrayDepth slice < fuel := by
            have h1 : arrayDepth slice ≤ rowsDepth rows := rowsDepth_mem rows slice hmem
            have h2 : rowsDepth rows + 1 < fuel + 1 := hdepth2
            omega
          have hr : ∀ i ∈ List.range (arrayLen slice), i < arrayLen slice := by
            intro i hi2
            exact List.mem_range.mp hi2
          obtain ⟨c2, he, hw, hc, hl⟩ :=
            ih slice hd elem c (List.range (arrayLen slice)) hcw hsw hokElem hr
          rw [dataTypeOf_leaf elem lk slice hlk hsw]
          refine ⟨c2, he, hw, ?_, ?_⟩
          · rw [hc, gatherCells_id]
          · rw [hl, List.length_range]
        obtain ⟨child2, ends2, valid2, he, hw, hl2, ho2, hc2, hcell2⟩ :=
          extendListGo_spec (builder_extendF fuel) elem lk rows hlk hrows hext
            idx child ends valid hchild hlen hends hidx3
        refine ⟨.listB child2 ends2 valid2, ?_, ?_, ?_, ?_⟩
        · simp only [builder_extendF, hlk, hmatch]
          rw [if_pos trivial]
          exact he
        · exact .listB elem lk child2 ends2 valid2 hlk
            (leafMatches_of_WT elem lk child2 hlk hw) hw hl2 ho2
        · exact hcell2
        · exact hc2
    | structA fields validity children hach =>
      have hb2 : BuilderWT (.struct fields) b := by assumption
      have hok2 : extOK (.struct fields) = true := by assumption
      have hidx3 : ∀ i ∈ idx, i < arrayLen (.structA fields validity children) := by assumption
      have hdepth2 : arrayDepth (.structA fields validity children) < fuel + 1 := by assumption
      cases hb2 with
      | primB dt0 k1 vals hk0 => exact Option.noConfusion hk0
      | structB f2 childrenB validityB hbch =>
        have hext2 : ∀ (i : Nat) (dt : DataType) (c : Builder) (a : ArrayData),
            a ∈ children → ArrayWT dt a → BuilderWT dt c → extOK dt = true →
            (∀ j ∈ [i], j < arrayLen a) →
            ∃ c2, builder_extendF fuel c a [i] dt = .ok c2 ∧ BuilderWT dt c2 ∧
              builderCells c2 = builderCells c ++ gatherCells a [i] ∧
              builderLen c2 = builderLen c + 1 := by
          intro i dt2 c a hmem haw hcw hok3 hj
          have hd : arrayDepth a < fuel := by
            have h1 : arrayDepth a ≤ childrenDepth children := childrenDepth_mem children a hmem
            have h2 : childrenDepth children + 1 < fuel + 1 := hdepth2
            omega
          obtain ⟨c2, he, hw, hc, hl⟩ := ih a hd dt2 c [i] hcw haw hok3 hj
          exact ⟨c2, he, hw, hc, hl⟩
        obtain ⟨children2, validity2, he, hw, hlen2, hcell2⟩ :=
          extendStructGo_spec (builder_extendF fuel) fields fields fields validity children
            hach hok2 hext2 idx childrenB validityB hbch hidx3
        refine ⟨.structB fields children2 validity2, ?_, ?_, ?_, ?_⟩
        · exact he
        · exact .structB fields children2 validity2 hw
        · exact hcell2
        · exact hlen2

end ExtendMain

section WrapperSpec

theorem builder_extend_spec (dataType : DataType) (b : Builder) (arr : ArrayData)
    (idx : List Nat) (hb : BuilderWT dataType b) (ha : ArrayWT dataType arr)
    (hok : extOK dataType = true) (hidx : ∀ i ∈ idx, i < arrayLen arr) :
    ∃ b2, builder_extend b arr idx dataType = .ok b2 ∧
      BuilderWT dataType b2 ∧
      builderCells b2 = builderCells b ++ gatherCells arr idx ∧
      builderLen b2 = builderLen b + idx.length :=
  builder_extendF_spec (arrayDepth arr + 1) arr (Nat.lt_succ_self _) dataType b idx
    hb ha hok hidx

end WrapperSpec

section FactorySpec

theorem listChildKind_of_factory (elem : DataType) (lk : LeafKind)
    (h : factoryListKind elem = some lk) : listChildKind elem = some lk := by
  revert h
  cases elem <;> intro h <;>
    first
    | exact Option.noConfusion h
    | exact h
    | (rename_i u
       revert h
       cases u <;> intro h <;> first | exact Option.noConfusion h | exact h)

theorem leafMatches_emptyLeaf (lk : LeafKind) :
    leafBuilderMatches lk (emptyLeaf lk) = true := by
  cases lk <;> simp [leafBuilderMatches, emptyLeaf]

theorem emptyLeaf_WT (elem : DataType) (lk : LeafKind)
    (h : factoryListKind elem = some lk) : BuilderWT elem (emptyLeaf lk) := by
  revert h
  cases elem <;> intro h <;>
    first
    | exact Option.noConfusion h
    | (have h2 : some _ = some lk := h
       injection h2 with h3
       subst h3
       first
       | exact .primB _ _ _ rfl
       | exact .utf8 []
       | exact .largeUtf8 []
       | exact .binary []
       | exact .largeBinary [])
    | (rename_i u
       revert h
       cases u <;> intro h <;>
         first
         | exact Option.noConfusion h
         | (have h2 : some _ = some lk := h
            injection h2 with h3
            subst h3
            exact .primB _ _ _ rfl))

mutual
theorem new_array_builder_spec : ∀ (dataType : DataType) (n : Nat) (b : Builder),
    new_array_builder dataType n = .ok b →
    BuilderWT dataType b ∧ builderCells b = [] ∧ builderLen b = 0 := by
  intro dataType n b
  cases dataType <;> intro h
  case null =>
    injection h with h2
    subst h2
    exact ⟨.nullB 0, rfl, rfl⟩
  case utf8 =>
    injection h with h2
    subst h2
    exact ⟨.utf8 [], rfl, rfl⟩
  case largeUtf8 =>
    injection h with h2
    subst h2
    exact ⟨.largeUtf8 [], rfl, rfl⟩
  case binary =>
    injection h with h2
    subst h2
    exact ⟨.binary [], rfl, rfl⟩
  case largeBinary =>
    injection h with h2
    subst h2
    exact ⟨.largeBinary [], rfl, rfl⟩
  case decimal128 p s =>
    injection h with h2
    subst h2
    exact ⟨.decimal128 p s [] rfl, rfl, rfl⟩
  case decimal256 p s =>
    injection h with h2
    subst h2
    exact ⟨.decimal256 p s [] rfl, rfl, rfl⟩
  case dictionary keyType valueType =>
    simp only [new_array_builder] at h
    cases hdk : dictKeyOf keyType with
    | none =>
      rw [hdk] at h
      exact Except.noConfusion h
    | some dk =>
      rw [hdk] at h
      cases hvk : dictValuePrimKind valueType with
      | some vk =>
        rw [hvk] at h
        have h2 : Except.ok (Builder.dictPrimB dk vk [] []) = Except.ok b := h
        injection h2 with h3
        subst h3
        exact ⟨.dictPrimB keyType valueType dk vk [] [] hdk hvk rfl, rfl, rfl⟩
      | none =>
        rw [hvk] at h
        revert h
        cases valueType <;> intro h <;> try exact Except.noConfusion h
        case utf8 =>
          have h2 : Except.ok (Builder.dictStrB dk [] []) = Except.ok b := h
          injection h2 with h3
          subst h3
          exact ⟨.dictStrB keyType .utf8 dk [] [] hdk (Or.inl rfl) rfl, rfl, rfl⟩
        case largeUtf8 =>
          have h2 : Except.ok (Builder.dictStrB dk [] []) = Except.ok b := h
          injection h2 with h3
          subst h3
          exact ⟨.dictStrB keyType .largeUtf8 dk [] [] hdk (Or.inr rfl) rfl, rfl, rfl⟩
  case list elem =>
    simp only [new_array_builder] at h
    cases hlk : factoryListKind elem with
    | none =>
      rw [hlk] at h
      exact Except.noConfusion h
    | some lk =>
      rw [hlk] at h
      have h2 : Except.ok (Builder.listB (emptyLeaf lk) [] []) = Except.ok b := h
      injection h2 with h3
      subst h3
      refine ⟨.listB elem lk (emptyLeaf lk) [] [] (listChildKind_of_factory elem lk hlk)
        (leafMatches_emptyLeaf lk) (emptyLeaf_WT elem lk hlk) rfl ?_, rfl, rfl⟩
      cases lk <;> rfl
  case struct fields =>
    simp only [new_array_builder] at h
    cases hch : newFieldBuilders fields n with
    | error e =>
      rw [hch] at h
      exact Except.noConfusion h
    | ok children =>
      rw [hch] at h
      have h2 : Except.ok (Builder.structB fields children []) = Except.ok b := h
      injection h2 with h3
      subst h3
      exact ⟨.structB fields children [] (newFieldBuilders_spec fields n children hch), rfl, rfl⟩
  all_goals
    first
    | (injection h with h2
       subst h2
       exact ⟨.primB _ _ _ rfl, rfl, rfl⟩)
    | (rename_i u
       revert h
       cases u <;> intro h <;>
         first
         | exact Except.noConfusion h
         | (injection h with h2
            subst h2
            exact ⟨.primB _ _ _ rfl, rfl, rfl⟩))
    | exact Except.noConfusion h
termination_by structural dataType => dataType

theorem newFieldBuilders_spec : ∀ (fields : List (String × DataType)) (n : Nat)
    (children : List Builder), newFieldBuilders fields n = .ok children →
    BuilderWTChildren 0 fields children := by
  intro fields n children h
  cases fields with
  | nil =>
    have h2 : Except.ok ([] : List Builder) = Except.ok children := h
    injection h2 with h3
    subst h3
    exact .nil 0
  | cons f fs =>
    simp only [newFieldBuilders] at h
    cases hc : new_array_builder f.2 n with
    | error e =>
      rw [hc] at h
      exact Except.noConfusion h
    | ok c =>
      rw [hc] at h
      cases hrest : newFieldBuilders fs n with
      | error e =>
        rw [hrest] at h
        exact Except.noConfusion h
      | ok rest =>
        rw [hrest] at h
        have h2 : Except.ok (c :: rest) = Except.ok children := h
        injection h2 with h3
        subst h3
        obtain ⟨hw, _, hlen⟩ := new_array_builder_spec f.2 n c hc
        exact .cons 0 f fs c rest hw hlen (newFieldBuilders_spec fs n rest hrest)
termination_by structural fields => fields
end

end FactorySpec

section FactoryTotal

mutual
theorem new_array_builder_total : ∀ (dataType : DataType) (n : Nat),
    (firstUnsupported dataType = none → ∃ b, new_array_builder dataType n = .ok b) ∧
    (∀ bad, firstUnsupported dataType = some bad →
      new_array_builder dataType n = .error (.unsupported bad)) := by
  intro dataType n
  cases dataType
  case dictionary keyType valueType =>
    cases hdk : dictKeyOf keyType with
    | none =>
      have h2 : firstUnsupported (.dictionary keyType valueType) = some keyType := by
        simp only [firstUnsupported, hdk]
      have h3 : new_array_builder (.dictionary keyType valueType) n =
          .error (.unsupported keyType) := by
        simp only [new_array_builder, hdk]
      refine ⟨fun hn => ?_, fun bad hbad => ?_⟩
      · rw [h2] at hn
        exact Option.noConfusion hn
      · rw [h2] at hbad
        injection hbad with h4
        subst h4
        exact h3
    | some dk =>
      cases hvk : dictValuePrimKind valueType with
      | some vk =>
        have h2 : firstUnsupported (.dictionary keyType valueType) = none := by
          simp only [firstUnsupported, hdk, hvk]
        have h3 : new_array_builder (.dictionary keyType valueType) n =
            .ok (.dictPrimB dk vk [] []) := by
          simp only [new_array_builder, hdk, hvk]
        exact ⟨fun _ => ⟨_, h3⟩, fun bad hbad => by
          rw [h2] at hbad
          exact Option.noConfusion hbad⟩
      | none =>
        revert hvk
        cases valueType <;> intro hvk
        case utf8 =>
          have h2 : firstUnsupported (.dictionary keyType .utf8) = none := by
            simp only [firstUnsupported, hdk, hvk]
          have h3 : new_array_builder (.dictionary keyType .utf8) n =
              .ok (.dictStrB dk [] []) := by
            simp only [new_array_builder, hdk, hvk]
          exact ⟨fun _ => ⟨_, h3⟩, fun bad hbad => by
            rw [h2] at hbad
            exact Option.noConfusion hbad⟩
        case largeUtf8 =>
          have h2 : firstUnsupported (.dictionary keyType .largeUtf8) = none := by
            simp only [firstUnsupported, hdk, hvk]
          have h3 : new_array_builder (.dictionary keyType .largeUtf8) n =
              .ok (.dictStrB dk [] []) := by
            simp only [new_array_builder, hdk, hvk]
          exact ⟨fun _ => ⟨_, h3⟩, fun bad hbad => by
            rw [h2] at hbad
            exact Option.noConfusion hbad⟩
        all_goals
          refine ⟨fun hn => ?_, fun bad hbad => ?_⟩
          case refine_1 =>
            simp only [firstUnsupported, hdk, hvk] at hn
            exact Option.noConfusion hn
          case refine_2 =>
            simp only [firstUnsupported, hdk, hvk] at hbad
            injection hbad with h4
            subst h4
            simp only [new_array_builder, hdk, hvk]
  case list elem =>
    cases hlk : factoryListKind elem with
    | some lk =>
      have h2 : firstUnsupported (.list elem) = none := by
        simp only [firstUnsupported, hlk]
      have h3 : new_array_builder (.list elem) n = .ok (.listB (emptyLeaf lk) [] []) := by
        simp only [new_array_builder, hlk]
      exact ⟨fun _ => ⟨_, h3⟩, fun bad hbad => by
        rw [h2] at hbad
        exact Option.noConfusion hbad⟩
    | none =>
      have h2 : firstUnsupported (.list elem) = some elem := by
        simp only [firstUnsupported, hlk]
      have h3 : new_array_builder (.list elem) n = .error (.unsupported elem) := by
        simp only [new_array_builder, hlk]
      refine ⟨fun hn => ?_, fun bad hbad => ?_⟩
      · rw [h2] at hn
        exact Option.noConfusion hn
      · rw [h2] at hbad
        injection hbad with h4
        subst h4
        exact h3
  case struct fields =>
    obtain ⟨hok, herr⟩ := newFieldBuilders_total fields n
    refine ⟨fun hn => ?_, fun bad hbad => ?_⟩
    · have hn2 : firstUnsupportedFields fields = none := hn
      obtain ⟨cs, hcs⟩ := hok hn2
      exact ⟨.structB fields cs [], by
        simp only [new_array_builder, hcs]
        rfl⟩
    · have hbad2 : firstUnsupportedFields fields = some bad := hbad
      have h3 := herr bad hbad2
      simp only [new_array_builder, h3]
      rfl
  all_goals
    first
    | exact ⟨fun _ => ⟨_, rfl⟩, fun bad hbad => Option.noConfusion hbad⟩
    | exact ⟨fun hn => Option.noConfusion hn, fun bad hbad => by
        injection hbad with h2
        subst h2
        rfl⟩
    | (rename_i u
       cases u <;>
         first
         | exact ⟨fun _ => ⟨_, rfl⟩, fun bad hbad => Option.noConfusion hbad⟩
         | exact ⟨fun hn => Option.noConfusion hn, fun bad hbad => by
             injection hbad with h2
             subst h2
             rfl⟩)
termination_by structural dataType => dataType

theorem newFieldBuilders_total : ∀ (fields : List (String × DataType)) (n : Nat),
    (firstUnsupportedFields fields = none → ∃ cs, newFieldBuilders fields n = .ok cs) ∧
    (∀ bad, firstUnsupportedFields fields = some bad →
      newFieldBuilders fields n = .error (.unsupported bad)) := by
  intro fields n
  cases fields with
  | nil => exact ⟨fun _ => ⟨[], rfl⟩, fun bad hbad => Option.noConfusion hbad⟩
  | cons f fs =>
    obtain ⟨hok1, herr1⟩ := new_array_builder_total f.2 n
    obtain ⟨hok2, herr2⟩ := newFieldBuilders_total fs n
    cases hfu : firstUnsupported f.2 with
    | some bad1 =>
      refine ⟨fun hn => ?_, fun bad hbad => ?_⟩
      · simp only [firstUnsupportedFields, hfu] at hn
        exact Option.noConfusion hn
      · simp only [firstUnsupportedFields, hfu] at hbad
        injection hbad with h4
        subst h4
        have h3 := herr1 bad1 hfu
        simp only [newFieldBuilders, h3]
        rfl
    | none =>
      refine ⟨fun hn => ?_, fun bad hbad => ?_⟩
      · simp only [firstUnsupportedFields, hfu] at hn
        obtain ⟨c, hc⟩ := hok1 hfu
        obtain ⟨cs, hcs⟩ := hok2 hn
        exact ⟨c :: cs, by
          simp only [newFieldBuilders, hc, hcs]
          rfl⟩
      · simp only [firstUnsupportedFields, hfu] at hbad
        obtain ⟨c, hc⟩ := hok1 hfu
        have h3 := herr2 bad hbad
        simp only [newFieldBuilders, hc, h3]
        rfl
termination_by structural fields => fields
end

end FactoryTotal

section FinishSpec

theorem getD_map_lt {α β : Type} (f : α → β) (l : List α) (i : Nat) (d : β) (d0 : α)
    (h : i < l.length) : (l.map f).getD i d = f (l.getD i d0) := by
  rw [List.getD_eq_getElem?_getD, List.getElem?_map, List.getElem?_eq_getElem h]
  rw [List.getD_eq_getElem?_getD, List.getElem?_eq_getElem h]
  rfl

theorem mkListRows_length (ca : ArrayData) :
    ∀ (ends : List Nat) (valid : List Bool) (prev : Nat),
      (mkListRows ca prev ends valid).length = min ends.length valid.length := by
  intro ends
  induction ends with
  | nil => intro valid prev; cases valid <;> rfl
  | cons e es ih =>
    intro valid prev
    cases valid with
    | nil => rfl
    | cons v vs =>
      show (mkListRows ca prev (e :: es) (v :: vs)).length = _
      rw [show mkListRows ca prev (e :: es) (v :: vs) =
        (if v then some (arraySlice ca prev (e - prev)) else none) ::
          mkListRows ca e es vs from rfl]
      rw [List.length_cons, ih vs e]
      simp [Nat.succ_min_succ]

theorem mkListRows_cells (ca : ArrayData)
    (hslice : ∀ s l, arrayCells (arraySlice ca s l) = ((arrayCells ca).drop s).take l) :
    ∀ (ends : List Nat) (valid : List Bool) (prev : Nat),
      arrayCellsRows (mkListRows ca prev ends valid) =
        listRowCells (arrayCells ca) prev ends valid := by
  intro ends
  induction ends with
  | nil => intro valid prev; cases valid <;> rfl
  | cons e es ih =>
    intro valid prev
    cases valid with
    | nil => rfl
    | cons v vs =>
      cases v with
      | false =>
        show none :: arrayCellsRows (mkListRows ca e es vs) =
          none :: listRowCells (arrayCells ca) e es vs
        rw [ih vs e]
      | true =>
        show some (.listC (arrayCells (arraySlice ca prev (e - prev)))) ::
            arrayCellsRows (mkListRows ca e es vs) =
          some (.listC (((arrayCells ca).drop prev).take (e - prev))) ::
            listRowCells (arrayCells ca) e es vs
        rw [hslice prev (e - prev), ih vs e]

theorem finishCloned_leaf (elem : DataType) (lk : LeafKind) (child : Builder)
    (hlk : listChildKind elem = some lk) (hchild : BuilderWT elem child) :
    ∃ ca, finishCloned child = .ok ca ∧ arrayCells ca = builderCells child ∧
      arrayLen ca = builderLen child ∧
      (∀ s l, arrayCells (arraySlice ca s l) = ((arrayCells ca).drop s).take l) := by
  cases hchild <;> try exact Option.noConfusion hlk
  case primB k vals hk =>
    refine ⟨.prim k vals, rfl, rfl, rfl, ?_⟩
    intro s l
    show ((vals.drop s).take l).map (Option.map Cell.intC) =
      ((vals.map (Option.map Cell.intC)).drop s).take l
    rw [List.map_take, List.map_drop]
  case utf8 vals =>
    refine ⟨.strA false vals, rfl, rfl, rfl, ?_⟩
    intro s l
    show ((vals.drop s).take l).map (Option.map Cell.strC) =
      ((vals.map (Option.map Cell.strC)).drop s).take l
    rw [List.map_take, List.map_drop]
  case largeUtf8 vals =>
    refine ⟨.strA true vals, rfl, rfl, rfl, ?_⟩
    intro s l
    show ((vals.drop s).take l).map (Option.map Cell.strC) =
      ((vals.map (Option.map Cell.strC)).drop s).take l
    rw [List.map_take, List.map_drop]
  case binary vals =>
    refine ⟨.binA false vals, rfl, rfl, rfl, ?_⟩
    intro s l
    show ((vals.drop s).take l).map (Option.map Cell.binC) =
      ((vals.map (Option.map Cell.binC)).drop s).take l
    rw [List.map_take, List.map_drop]
  case largeBinary vals =>
    refine ⟨.binA true vals, rfl, rfl, rfl, ?_⟩
    intro s l
    show ((vals.drop s).take l).map (Option.map Cell.binC) =
      ((vals.map (Option.map Cell.binC)).drop s).take l
    rw [List.map_take, List.map_drop]
  case decimal128 p s0 vals hfits =>
    refine ⟨.dec .d128 p s0 vals, ?_, rfl, rfl, ?_⟩
    · simp only [finishCloned, hfits]
      rfl
    · intro s l
      show ((vals.drop s).take l).map (Option.map Cell.intC) =
        ((vals.map (Option.map Cell.intC)).drop s).take l
      rw [List.map_take, List.map_drop]
  case decimal256 p s0 vals hfits =>
    refine ⟨.dec .d256 p s0 vals, ?_, rfl, rfl, ?_⟩
    · simp only [finishCloned, hfits]
      rfl
    · intro s l
      show ((vals.drop s).take l).map (Option.map Cell.intC) =
        ((vals.map (Option.map Cell.intC)).drop s).take l
      rw [List.map_take, List.map_drop]

mutual
theorem finishCloned_spec : ∀ (dataType : DataType) (b : Builder),
    BuilderWT dataType b →
    ∃ a, finishCloned b = .ok a ∧ arrayCells a = builderCells b ∧
      arrayLen a = builderLen b := by
  intro dataType b hWT
  cases hWT
  case nullB len => exact ⟨.nullA len, rfl, rfl, rfl⟩
  case primB k vals hk => exact ⟨.prim k vals, rfl, rfl, rfl⟩
  case utf8 vals => exact ⟨.strA false vals, rfl, rfl, rfl⟩
  case largeUtf8 vals => exact ⟨.strA true vals, rfl, rfl, rfl⟩
  case binary vals => exact ⟨.binA false vals, rfl, rfl, rfl⟩
  case largeBinary vals => exact ⟨.binA true vals, rfl, rfl, rfl⟩
  case decimal128 p s vals hfits =>
    refine ⟨.dec .d128 p s vals, ?_, rfl, rfl⟩
    simp only [finishCloned, hfits]
    rfl
  case decimal256 p s vals hfits =>
    refine ⟨.dec .d256 p s vals, ?_, rfl, rfl⟩
    simp only [finishCloned, hfits]
    rfl
  case dictPrimB keyType valueType dk vk distinct keys hdk hvk hkb =>
    refine ⟨.dict dk keys (.prim vk (distinct.map some)), rfl, ?_, rfl⟩
    show keys.map (fun k? => k?.bind (fun key =>
        (arrayCells (.prim vk (distinct.map some))).getD key none)) =
      keys.map (fun k? => k?.map (fun key => Cell.intC (distinct.getD key 0)))
    apply List.map_congr_left
    intro k? hk?
    cases k? with
    | none => rfl
    | some key =>
      have hbnd : key < distinct.length := by
        have h1 := List.all_eq_true.mp hkb _ hk?
        exact of_decide_eq_true h1
      show ((distinct.map some).map (Option.map Cell.intC)).getD key none =
        some (.intC (distinct.getD key 0))
      rw [List.map_map]
      rw [getD_map_lt _ distinct key none 0 hbnd]
      rfl
  case dictStrB keyType valueType dk distinct keys hdk hval hkb =>
    refine ⟨.dict dk keys (.strA false (distinct.map some)), rfl, ?_, rfl⟩
    show keys.map (fun k? => k?.bind (fun key =>
        (arrayCells (.strA false (distinct.map some))).getD key none)) =
      keys.map (fun k? => k?.map (fun key => Cell.strC (distinct.getD key ""))) 
    apply List.map_congr_left
    intro k? hk?
    cases k? with
    | none => rfl
    | some key =>
      have hbnd : key < distinct.length := by
        have h1 := List.all_eq_true.mp hkb _ hk?
        exact of_decide_eq_true h1
      show ((distinct.map some).map (Option.map Cell.strC)).getD key none =
        some (.strC (distinct.getD key ""))
      rw [List.map_map]
      rw [getD_map_lt _ distinct key none "" hbnd]
      rfl
  case listB elem lk child ends valid hlk hmatch hchild hlen hends =>
    obtain ⟨ca, hfc, hcells, hclen, hslice⟩ := finishCloned_leaf elem lk child hlk hchild
    refine ⟨.listA (dataTypeOf ca) (mkListRows ca 0 ends valid), ?_, ?_, ?_⟩
    · simp only [finishCloned, hfc]
      rfl
    · show arrayCellsRows (mkListRows ca 0 ends valid) = _
      rw [mkListRows_cells ca hslice ends valid 0, hcells]
      rfl
    · show (mkListRows ca 0 ends valid).length = valid.length
      rw [mkListRows_length ca ends valid 0, hlen, Nat.min_self]
  case structB fields children validity hch =>
    obtain ⟨cas, hfc, hcellsC⟩ := finishChildren_spec validity.length fields children hch
    refine ⟨.structA fields validity cas, ?_, ?_, rfl⟩
    · simp only [finishCloned, hfc]
      rfl
    · show structRows (arrayCellsChildren cas) validity =
        structRows (builderCellsChildren children) validity
      rw [hcellsC]
termination_by structural dataType => dataType

theorem finishChildren_spec : ∀ (n : Nat) (fields : List (String × DataType))
    (children : List Builder), BuilderWTChildren n fields children →
    ∃ cas, finishChildren children = .ok cas ∧
      arrayCellsChildren cas = builderCellsChildren children := by
  intro n fields children hch
  cases hch with
  | nil => exact ⟨[], rfl, rfl⟩
  | cons n f fs c cs hc hclen hrest =>
    obtain ⟨ca, hfc, hcells, hlen⟩ := finishCloned_spec f.2 c hc
    obtain ⟨cas, hfcs, hcellsC⟩ := finishChildren_spec n fs cs hrest
    refine ⟨ca :: cas, ?_, ?_⟩
    · simp only [finishChildren, hfc, hfcs]
      rfl
    · simp only [arrayCellsChildren, builderCellsChildren]
      rw [hcells, hcellsC]
termination_by structural n fields => fields
end

end FinishSpec

section RunOpsSpec

theorem runOps_spec : ∀ (ops : List BuilderOp) (dataType : DataType) (b : Builder),
    BuilderWT dataType b → extOK dataType = true → OpsOK dataType ops →
    ∃ b2, runOps dataType b ops = .ok b2 ∧ BuilderWT dataType b2 ∧
      builderLen b2 = builderLen b + (ops.map opCount).sum := by
  intro ops
  induction ops with
  | nil =>
    intro dataType b hb _ _
    exact ⟨b, rfl, hb, by simp⟩
  | cons op rest ih =>
    intro dataType b hb hok hops
    cases op with
    | extendOp arr indices =>
      obtain ⟨haw, hidx, hrest⟩ := hops
      obtain ⟨b2, he, hw, _, hl⟩ := builder_extend_spec dataType b arr indices hb haw hok hidx
      obtain ⟨b3, he3, hw3, hl3⟩ := ih dataType b2 hw hok hrest
      refine ⟨b3, ?_, hw3, ?_⟩
      · simp only [runOps, he]
        exact he3
      · rw [hl3, hl]
        show builderLen b + indices.length + (rest.map opCount).sum =
          builderLen b + (indices.length + (rest.map opCount).sum)
        omega
    | nullOp =>
      obtain ⟨hnull, hrest⟩ := hops
      obtain ⟨b2, he, hw, _, hl⟩ := builder_append_null_spec dataType b hb hnull
      obtain ⟨b3, he3, hw3, hl3⟩ := ih dataType b2 hw hok hrest
      refine ⟨b3, ?_, hw3, ?_⟩
      · simp only [runOps, he]
        exact he3
      · rw [hl3, hl]
        show builderLen b + 1 + (rest.map opCount).sum =
          builderLen b + (1 + (rest.map opCount).sum)
        omega

end RunOpsSpec

section Claims

/-- C1: gather correctness of `builder_extend` — for every descriptor whose
null-append path is implemented (`extOK`, which excludes dictionary fields
inside structs), extending a well-typed builder from a well-typed source with
in-range indices appends exactly one row per index, with appended row `k`
equal to source row `idx[k]` in value and validity; and the Int32/Utf8
end-to-end scenario of the specification: source rows (1,"x"), (null,"y"),
(3,null) extended with [2,0] and finished yield rows (3,null), (1,"x"). -/
theorem claim_C1 :
    (∀ (dataType : DataType) (b : Builder) (arr : ArrayData) (idx : List Nat),
      BuilderWT dataType b → ArrayWT dataType arr → extOK dataType = true →
      (∀ i ∈ idx, i < arrayLen arr) →
      ∃ b2, builder_extend b arr idx dataType = .ok b2 ∧
        builderCells b2 = builderCells b ++
          idx.map (fun i => (arrayCells arr).getD i none) ∧
        builderLen b2 = builderLen b + idx.length) ∧
    (new_array_builder (.struct [("a", .int32), ("b", .utf8)]) 16 =
        .ok (.structB [("a", .int32), ("b", .utf8)] [.primB .int32 [], .strB false []] []) ∧
      builder_extend
          (.structB [("a", .int32), ("b", .utf8)] [.primB .int32 [], .strB false []] [])
          (.structA [("a", .int32), ("b", .utf8)] [true, true, true]
            [.prim .int32 [some 1, none, some 3],
             .strA false [some "x", some "y", none]])
          [2, 0] (.struct [("a", .int32), ("b", .utf8)]) =
        .ok (.structB [("a", .int32), ("b", .utf8)]
          [.primB .int32 [some 3, some 1], .strB false [none, some "x"]]
          [true, true]) ∧
      finishCloned (.structB [("a", .int32), ("b", .utf8)]
          [.primB .int32 [some 3, some 1], .strB false [none, some "x"]]
          [true, true]) =
        .ok (.structA [("a", .int32), ("b", .utf8)] [true, true]
          [.prim .int32 [some 3, some 1], .strA false [none, some "x"]]) ∧
      arrayCells (.structA [("a", .int32), ("b", .utf8)] [true, true]
          [.prim .int32 [some 3, some 1], .strA false [none, some "x"]]) =
        [some (.structC [some (.intC 3), none]),
         some (.structC [some (.intC 1), some (.strC "x")])]) := by
  constructor
  · intro dataType b arr idx hb ha hok hidx
    obtain ⟨b2, he, _, hc, hl⟩ := builder_extend_spec dataType b arr idx hb ha hok hidx
    exact ⟨b2, he, hc, hl⟩
  · exact ⟨rfl, rfl, rfl, rfl⟩

theorem claim_C1_witness :
    ∃ b2, builder_extend (.primB .int32 []) (.prim .int32 [some 5]) [0, 0] .int32 =
        .ok b2 ∧
      builderCells b2 = builderCells (.primB .int32 []) ++
        [0, 0].map (fun i => (arrayCells (.prim .int32 [some 5])).getD i none) ∧
      builderLen b2 = builderLen (.primB .int32 []) + [0, 0].length :=
  claim_C1.1 .int32 (.primB .int32 []) (.prim .int32 [some 5]) [0, 0]
    (.primB .int32 .int32 [] rfl) (.prim .int32 .int32 [some 5] rfl)
    rfl (by decide)

/-- C1 counterexample: the unconditional claim fails — a struct descriptor
with a dictionary field is fully supported by the factory and the source is
well-typed with in-range indices, yet extending over a null source row
panics (`unimplemented!` in `builder_append_null`, which has no dictionary
arm), instead of appending the row. -/
theorem claim_C1_cx :
    new_array_builder (.struct [("d", .dictionary .int32 .utf8)]) 16 =
      .ok (.structB [("d", .dictionary .int32 .utf8)] [.dictStrB .i32 [] []] []) ∧
    ArrayWT (.struct [("d", .dictionary .int32 .utf8)])
      (.structA [("d", .dictionary .int32 .utf8)] [false]
        [.dict .i32 [none] (.strA false [])]) ∧
    (∀ i ∈ [0], i < arrayLen (.structA [("d", .dictionary .int32 .utf8)] [false]
      [.dict .i32 [none] (.strA false [])])) ∧
    builder_extend (.structB [("d", .dictionary .int32 .utf8)] [.dictStrB .i32 [] []] [])
      (.structA [("d", .dictionary .int32 .utf8)] [false]
        [.dict .i32 [none] (.strA false [])])
      [0] (.struct [("d", .dictionary .int32 .utf8)]) =
      .error (.unsupported (.dictionary .int32 .utf8)) := by
  refine ⟨rfl, ?_, by decide, rfl⟩
  refine .structA _ _ _ (.cons _ _ _ _ _ ?_ rfl (.nil _))
  exact .dict .int32 .utf8 .i32 [none] (.strA false []) rfl (.utf8 []) rfl rfl

/-- C2: round trip — for every descriptor whose null-append path is
implemented (`extOK`), a factory-fresh builder extended with the identity
index range over a well-typed source finishes into an array equal to the
source in logical row values (including validity) and row count. -/
theorem claim_C2 (dataType : DataType) (n : Nat) (b0 : Builder) (arr : ArrayData)
    (hfac : new_array_builder dataType n = .ok b0) (ha : ArrayWT dataType arr)
    (hok : extOK dataType = true) :
    ∃ b1 out, builder_extend b0 arr (List.range (arrayLen arr)) dataType = .ok b1 ∧
      finishCloned b1 = .ok out ∧
      arrayCells out = arrayCells arr ∧ arrayLen out = arrayLen arr := by
  obtain ⟨hw0, hc0, hl0⟩ := new_array_builder_spec dataType n b0 hfac
  obtain ⟨b1, he, hw1, hc1, hl1⟩ := builder_extend_spec dataType b0 arr
    (List.range (arrayLen arr)) hw0 ha hok (fun i hi => List.mem_range.mp hi)
  obtain ⟨out, hf, hc2, hl2⟩ := finishCloned_spec dataType b1 hw1
  refine ⟨b1, out, he, hf, ?_, ?_⟩
  · rw [hc2, hc1, hc0, gatherCells_id, List.nil_append]
  · rw [hl2, hl1, hl0, List.length_range]
    omega

theorem claim_C2_witness :
    ∃ b1 out, builder_extend (.strB false []) (.strA false [some "a", none])
        (List.range (arrayLen (.strA false [some "a", none]))) .utf8 = .ok b1 ∧
      finishCloned b1 = .ok out ∧
      arrayCells out = arrayCells (.strA false [some "a", none]) ∧
      arrayLen out = arrayLen (.strA false [some "a", none]) :=
  claim_C2 .utf8 16 (.strB false []) (.strA false [some "a", none]) rfl
    (.utf8 [some "a", none]) rfl

/-- C2 counterexample: the round trip does not hold for every supported
descriptor — for a struct with a dictionary field (factory-supported) whose
source has a null row, the identity extend panics instead of reproducing
the source. -/
theorem claim_C2_cx :
    new_array_builder (.struct [("d", .dictionary .int32 .utf8)]) 16 =
      .ok (.structB [("d", .dictionary .int32 .utf8)] [.dictStrB .i32 [] []] []) ∧
    ArrayWT (.struct [("d", .dictionary .int32 .utf8)])
      (.structA [("d", .dictionary .int32 .utf8)] [false]
        [.dict .i32 [none] (.strA false [])]) ∧
    builder_extend (.structB [("d", .dictionary .int32 .utf8)] [.dictStrB .i32 [] []] [])
      (.structA [("d", .dictionary .int32 .utf8)] [false]
        [.dict .i32 [none] (.strA false [])])
      (List.range (arrayLen (.structA [("d", .dictionary .int32 .utf8)] [false]
        [.dict .i32 [none] (.strA false [])])))
      (.struct [("d", .dictionary .int32 .utf8)]) =
      .error (.unsupported (.dictionary .int32 .utf8)) := by
  refine ⟨rfl, ?_, rfl⟩
  refine .structA _ _ _ (.cons _ _ _ _ _ ?_ rfl (.nil _))
  exact .dict .int32 .utf8 .i32 [none] (.strA false []) rfl (.utf8 []) rfl rfl

/-- C3: decimal finish — the ConfiguredDecimalBuilder finish applies its
retained precision and scale to the finished array, succeeds when every
stored value fits within the precision, and fails with `ValueOutOfRange`
exactly when some stored value's magnitude needs more than `precision`
decimal digits; the Decimal(5,2) scenario: a value with 6 integer digits
fails, an in-range value succeeds. -/
theorem claim_C3 (w : DecWidth) (p : Nat) (s : Int) (vals : List (Option Int)) :
    (vals.all (fun v? => v?.all (decimalFits p)) = true →
      finishCloned (.decB w p s vals) = .ok (.dec w p s vals)) ∧
    (finishCloned (.decB w p s vals) = .error .valueOutOfRange ↔
      ¬ (∀ v : Int, some v ∈ vals → v.natAbs ≤ 10 ^ p - 1)) ∧
    finishCloned (.decB .d128 5 2 [some 123456]) = .error .valueOutOfRange ∧
    finishCloned (.decB .d128 5 2 [some 12345, none]) =
      .ok (.dec .d128 5 2 [some 12345, none]) := by
  refine ⟨?_, ?_, rfl, rfl⟩
  · intro hall
    simp only [finishCloned, hall]
    rfl
  · cases hall : vals.all (fun v? => v?.all (decimalFits p)) with
    | true =>
      constructor
      · intro herr
        exfalso
        rw [show finishCloned (.decB w p s vals) = .ok (.dec w p s vals) from by
          simp only [finishCloned, hall]; rfl] at herr
        exact Except.noConfusion herr
      · intro hnot
        exfalso
        apply hnot
        intro v hv
        have h1 := List.all_eq_true.mp hall (some v) hv
        exact of_decide_eq_true h1
    | false =>
      constructor
      · intro _ hforall
        have h2 : vals.all (fun v? => v?.all (decimalFits p)) = true := by
          rw [List.all_eq_true]
          intro v? hv?
          cases v? with
          | none => rfl
          | some v => exact decide_eq_true (hforall v hv?)
        rw [hall] at h2
        exact Bool.noConfusion h2
      · intro _
        simp only [finishCloned, hall]
        rfl

theorem claim_C3_witness :
    finishCloned (.decB .d128 5 2 [some 12345]) = .ok (.dec .d128 5 2 [some 12345]) :=
  (claim_C3 .d128 5 2 [some 12345]).1 (by decide)

/-- C4: struct null alignment — on every struct builder whose fields all
support null append (`nullOKFields`, which excludes dictionary fields),
`builder_append_null` appends exactly one null row to every field child
builder, in order, and marks the outer row null, keeping every child column
row-aligned with the struct column; and the a:Int32/b:Utf8 scenario: one
null row, then one valid row (7,"z") via extend, then finish yields a 2-row
struct array with row 0 invalid, both children of length 2 and row 1 equal
to (7,"z"). -/
theorem claim_C4 :
    (∀ (fields : List (String × DataType)) (children : List Builder)
      (validity : List Bool),
      BuilderWTChildren validity.length fields children →
      nullOKFields fields = true →
      ∃ children2,
        builder_append_null (.structB fields children validity) (.struct fields) =
          .ok (.structB fields children2 (validity ++ [false])) ∧
        BuilderWTChildren (validity.length + 1) fields children2 ∧
        builderCellsChildren children2 =
          (builderCellsChildren children).map (fun cc => cc ++ [none])) ∧
    (new_array_builder (.struct [("a", .int32), ("b", .utf8)]) 16 =
        .ok (.structB [("a", .int32), ("b", .utf8)] [.primB .int32 [], .strB false []] []) ∧
      builder_append_null
          (.structB [("a", .int32), ("b", .utf8)] [.primB .int32 [], .strB false []] [])
          (.struct [("a", .int32), ("b", .utf8)]) =
        .ok (.structB [("a", .int32), ("b", .utf8)]
          [.primB .int32 [none], .strB false [none]] [false]) ∧
      builder_extend
          (.structB [("a", .int32), ("b", .utf8)]
            [.primB .int32 [none], .strB false [none]] [false])
          (.structA [("a", .int32), ("b", .utf8)] [true]
            [.prim .int32 [some 7], .strA false [some "z"]])
          [0] (.struct [("a", .int32), ("b", .utf8)]) =
        .ok (.structB [("a", .int32), ("b", .utf8)]
          [.primB .int32 [none, some 7], .strB false [none, some "z"]] [false, true]) ∧
      finishCloned (.structB [("a", .int32), ("b", .utf8)]
          [.primB .int32 [none, some 7], .strB false [none, some "z"]] [false, true]) =
        .ok (.structA [("a", .int32), ("b", .utf8)] [false, true]
          [.prim .int32 [none, some 7], .strA false [none, some "z"]]) ∧
      arrayLen (.structA [("a", .int32), ("b", .utf8)] [false, true]
          [.prim .int32 [none, some 7], .strA false [none, some "z"]]) = 2 ∧
      arrayLen (.prim .int32 [none, some 7]) = 2 ∧
      arrayLen (.strA false [none, some "z"]) = 2 ∧
      arrayCells (.structA [("a", .int32), ("b", .utf8)] [false, true]
          [.prim .int32 [none, some 7], .strA false [none, some "z"]]) =
        [none, some (.structC [some (.intC 7), some (.strC "z")])]) := by
  constructor
  · intro fields children validity hch hok
    obtain ⟨children2, heq, hwt, hcells⟩ :=
      appendNullFields_spec fields validity.length children hch hok
    refine ⟨children2, ?_, hwt, hcells⟩
    simp only [builder_append_null, heq]
    rfl
  · exact ⟨rfl, rfl, rfl, rfl, rfl, rfl, rfl, rfl⟩

theorem claim_C4_witness :
    ∃ children2,
      builder_append_null (.structB [("a", .int32)] [.primB .int32 []] [])
          (.struct [("a", .int32)]) =
        .ok (.structB [("a", .int32)] children2 ([] ++ [false])) ∧
      BuilderWTChildren (List.length ([] : List Bool) + 1) [("a", .int32)] children2 ∧
      builderCellsChildren children2 =
        (builderCellsChildren [.primB .int32 []]).map (fun cc => cc ++ [none]) :=
  claim_C4.1 [("a", .int32)] [.primB .int32 []] []
    (.cons _ _ _ _ _ (.primB .int32 .int32 [] rfl) rfl (.nil _)) rfl

/-- C4 counterexample: the unconditional claim fails — a struct builder with
a dictionary field (factory-supported) panics on null append instead of
appending a null to the field builder. -/
theorem claim_C4_cx :
    new_array_builder (.struct [("d", .dictionary .int32 .utf8)]) 16 =
      .ok (.structB [("d", .dictionary .int32 .utf8)] [.dictStrB .i32 [] []] []) ∧
    builder_append_null
      (.structB [("d", .dictionary .int32 .utf8)] [.dictStrB .i32 [] []] [])
      (.struct [("d", .dictionary .int32 .utf8)]) =
      .error (.unsupported (.dictionary .int32 .utf8)) :=
  ⟨rfl, rfl⟩

/-- C5: list null rows are frame-preserving — both `builder_append_null` on a
list builder and `builder_extend` at an index whose source list row is
invalid append only an outer-invalid marker (and repeat the current end
offset), returning the child builder completely unchanged. -/
theorem claim_C5 (elem : DataType) (lk : LeafKind) (child : Builder) (ends : List Nat)
    (valid : List Bool) (rows : List (Option ArrayData)) (i : Nat)
    (hlk : listChildKind elem = some lk)
    (hmatch : leafBuilderMatches lk child = true)
    (hrow : rows[i]? = some none) :
    builder_append_null (.listB child ends valid) (.list elem) =
      .ok (.listB child (ends ++ [builderLen child]) (valid ++ [false])) ∧
    builder_extend (.listB child ends valid) (.listA elem rows) [i] (.list elem) =
      .ok (.listB child (ends ++ [builderLen child]) (valid ++ [false])) := by
  constructor
  · simp [builder_append_null, hlk, hmatch]
  · simp only [builder_extend, builder_extendF, hlk, hmatch]
    rw [if_pos trivial]
    simp only [extendListGo, hrow]

theorem claim_C5_witness :
    builder_append_null (.listB (.primB .int32 [some 9]) [1] [true]) (.list .int32) =
      .ok (.listB (.primB .int32 [some 9])
        ([1] ++ [builderLen (.primB .int32 [some 9])]) ([true] ++ [false])) ∧
    builder_extend (.listB (.primB .int32 [some 9]) [1] [true])
        (.listA .int32 [some (.prim .int32 [some 5]), none]) [1] (.list .int32) =
      .ok (.listB (.primB .int32 [some 9])
        ([1] ++ [builderLen (.primB .int32 [some 9])]) ([true] ++ [false])) :=
  claim_C5 .int32 (.prim .int32) (.primB .int32 [some 9]) [1] [true]
    [some (.prim .int32 [some 5]), none] 1 rfl (by decide) rfl

/-- C6: dictionary extend decodes each gathered valid row to its logical
value through the source array's own value array and appends that value
into the destination builder, which interns and dedupes independently (the
interning table stays duplicate-free); and the dedup scenario: appending
"x" three times into a fresh dictionary builder yields a finished
dictionary array with a 1-entry value array and a 3-entry key column whose
keys are all equal. -/
theorem claim_C6 :
    (∀ (keyType valueType : DataType) (b : Builder) (arr : ArrayData) (idx : List Nat),
      BuilderWT (.dictionary keyType valueType) b →
      ArrayWT (.dictionary keyType valueType) arr →
      (∀ i ∈ idx, i < arrayLen arr) →
      ∃ b2, builder_extend b arr idx (.dictionary keyType valueType) = .ok b2 ∧
        builderCells b2 = builderCells b ++
          idx.map (fun i => (arrayCells arr).getD i none) ∧
        builderLen b2 = builderLen b + idx.length ∧
        (dictDistinctNodup b → dictDistinctNodup b2)) ∧
    (builder_extend (.dictStrB .i32 [] [])
        (.dict .i32 [some 0, some 0, some 0] (.strA false [some "x"]))
        [0, 1, 2] (.dictionary .int32 .utf8) =
      .ok (.dictStrB .i32 ["x"] [some 0, some 0, some 0]) ∧
      finishCloned (.dictStrB .i32 ["x"] [some 0, some 0, some 0]) =
        .ok (.dict .i32 [some 0, some 0, some 0] (.strA false [some "x"])) ∧
      (["x"] : List String).length = 1 ∧
      ([some 0, some 0, some 0] : List (Option Nat)).length = 3 ∧
      ([some 0, some 0, some 0] : List (Option Nat)).all
        (fun k? => decide (k? = some 0)) = true) := by
  constructor
  · intro keyType valueType b arr idx hb ha hidx
    obtain ⟨b2, he, _, hc, hl, hnod⟩ := extendDict_spec keyType valueType b arr idx hb ha hidx
    exact ⟨b2, he, hc, hl, hnod⟩
  · exact ⟨rfl, rfl, rfl, rfl, rfl⟩

theorem claim_C6_witness :
    ∃ b2, builder_extend (.dictStrB .i32 [] [])
        (.dict .i32 [some 0, none] (.strA false [some "y"])) [0, 1, 0]
        (.dictionary .int32 .utf8) = .ok b2 ∧
      builderCells b2 = builderCells (.dictStrB .i32 [] []) ++
        [0, 1, 0].map (fun i =>
          (arrayCells (.dict .i32 [some 0, none] (.strA false [some "y"]))).getD i none) ∧
      builderLen b2 = builderLen (.dictStrB .i32 [] []) + [0, 1, 0].length ∧
      (dictDistinctNodup (.dictStrB .i32 [] []) → dictDistinctNodup b2) :=
  claim_C6.1 .int32 .utf8 (.dictStrB .i32 [] [])
    (.dict .i32 [some 0, none] (.strA false [some "y"])) [0, 1, 0]
    (.dictStrB .int32 .utf8 .i32 [] [] rfl (Or.inl rfl) rfl)
    (.dict .int32 .utf8 .i32 [some 0, none] (.strA false [some "y"]) rfl
      (.utf8 [some "y"]) rfl (by decide))
    (by decide)

/-- C7: the factory succeeds exactly on the supported closed set, described
by `firstUnsupported`: it returns a builder when no offending descriptor
exists and otherwise fails with `UnsupportedType` naming exactly the first
offending descriptor in dispatch order; and every factory-supported list
element type yields the wrapped list builder over a fresh child builder. -/
theorem claim_C7 (dataType : DataType) (n : Nat) :
    (firstUnsupported dataType = none → ∃ b, new_array_builder dataType n = .ok b) ∧
    (∀ bad, firstUnsupported dataType = some bad →
      new_array_builder dataType n = .error (.unsupported bad)) ∧
    (∀ (elem : DataType) (lk : LeafKind), factoryListKind elem = some lk →
      new_array_builder (.list elem) n = .ok (.listB (emptyLeaf lk) [] [])) := by
  obtain ⟨hok, herr⟩ := new_array_builder_total dataType n
  refine ⟨hok, herr, ?_⟩
  intro elem lk hlk
  simp only [new_array_builder, hlk]

theorem claim_C7_witness :
    (∃ b, new_array_builder (.list .int32) 16 = .ok b) ∧
    new_array_builder (.time64 .second) 16 = .error (.unsupported (.time64 .second)) ∧
    new_array_builder (.dictionary .utf8 .utf8) 16 = .error (.unsupported .utf8) :=
  ⟨(claim_C7 (.list .int32) 16).1 rfl,
   (claim_C7 (.time64 .second) 16).2.1 (.time64 .second) rfl,
   (claim_C7 (.dictionary .utf8 .utf8) 16).2.1 .utf8 rfl⟩

/-- C8: row-count invariant — for every well-typed builder and interleaved
sequence of extend and null-append operations satisfying the operation
precondition (well-typed in-range extends; null appends only on descriptors
whose null-append path is implemented), the run succeeds and the final row
count is the initial row count plus the total indices processed plus the
nulls appended, independent of row validity. -/
theorem claim_C8 (dataType : DataType) (b : Builder) (ops : List BuilderOp)
    (hb : BuilderWT dataType b) (hok : extOK dataType = true)
    (hops : OpsOK dataType ops) :
    ∃ b2, runOps dataType b ops = .ok b2 ∧
      builderLen b2 = builderLen b + (ops.map opCount).sum := by
  obtain ⟨b2, he, _, hl⟩ := runOps_spec ops dataType b hb hok hops
  exact ⟨b2, he, hl⟩

theorem claim_C8_witness :
    ∃ b2, runOps .int32 (.primB .int32 [])
        [.extendOp (.prim .int32 [some 4]) [0, 0], .nullOp] = .ok b2 ∧
      builderLen b2 = builderLen (.primB .int32 []) +
        (([.extendOp (.prim .int32 [some 4]) [0, 0], .nullOp].map opCount).sum) :=
  claim_C8 .int32 (.primB .int32 []) [.extendOp (.prim .int32 [some 4]) [0, 0], .nullOp]
    (.primB .int32 .int32 [] rfl) rfl
    ⟨.prim .int32 .int32 [some 4] rfl, by decide, rfl, trivial⟩

/-- C8 counterexample: the unconditional claim fails — a dictionary builder
with matching descriptor panics on a null-append operation instead of
counting one row. -/
theorem claim_C8_cx :
    BuilderWT (.dictionary .int32 .utf8) (.dictStrB .i32 [] []) ∧
    runOps (.dictionary .int32 .utf8) (.dictStrB .i32 [] []) [.nullOp] =
      .error (.unsupported (.dictionary .int32 .utf8)) :=
  ⟨.dictStrB .int32 .utf8 .i32 [] [] rfl (Or.inl rfl) rfl, rfl⟩

/-- C9: totality under the precondition — for a factory-created builder, a
well-typed source of the same descriptor, and in-range indices, extend
succeeds whenever the descriptor's null-append dependencies are implemented
(`extOK`), and null append succeeds whenever the descriptor's null-append
path is implemented (`nullOK`); no panic branch is reached. -/
theorem claim_C9 (dataType : DataType) (n : Nat) (b0 : Builder) (arr : ArrayData)
    (idx : List Nat) (hfac : new_array_builder dataType n = .ok b0)
    (ha : ArrayWT dataType arr) (hidx : ∀ i ∈ idx, i < arrayLen arr)
    (hok : extOK dataType = true) :
    (∃ b2, builder_extend b0 arr idx dataType = .ok b2) ∧
    (nullOK dataType = true → ∃ b3, builder_append_null b0 dataType = .ok b3) := by
  obtain ⟨hw0, _, _⟩ := new_array_builder_spec dataType n b0 hfac
  constructor
  · obtain ⟨b2, he, _, _, _⟩ := builder_extend_spec dataType b0 arr idx hw0 ha hok hidx
    exact ⟨b2, he⟩
  · intro hnull
    obtain ⟨b3, he3, _, _, _⟩ := builder_append_null_spec dataType b0 hw0 hnull
    exact ⟨b3, he3⟩

theorem claim_C9_witness :
    (∃ b2, builder_extend (.primB .int32 []) (.prim .int32 [some 8]) [0] .int32 = .ok b2) ∧
    (nullOK .int32 = true → ∃ b3, builder_append_null (.primB .int32 []) .int32 = .ok b3) :=
  claim_C9 .int32 16 (.primB .int32 []) (.prim .int32 [some 8]) [0] rfl
    (.prim .int32 .int32 [some 8] rfl) (by decide) rfl

/-- C9 counterexample: totality fails without the gating — the factory
supports the Int32-keyed Utf8 dictionary descriptor, yet null append on the
factory-made builder reaches the `unimplemented!` panic (no dictionary arm
in `builder_append_null`). -/
theorem claim_C9_cx :
    new_array_builder (.dictionary .int32 .utf8) 16 = .ok (.dictStrB .i32 [] []) ∧
    builder_append_null (.dictStrB .i32 [] []) (.dictionary .int32 .utf8) =
      .error (.unsupported (.dictionary .int32 .utf8)) :=
  ⟨rfl, rfl⟩

/-- C10: the NullBuilder finish is non-destructive and idempotent — finish
returns the same array as finish_cloned (an all-invalid null array of the
current length) and returns the builder with its length unchanged, so
consecutive finishes agree, and null append and extend continue growing
from the prior length. -/
theorem claim_C10 (len m : Nat) (idx : List Nat) :
    finish (.nullB len) = .ok (.nullA len, .nullB len) ∧
    finishCloned (.nullB len) = .ok (.nullA len) ∧
    builder_append_null (.nullB len) .null = .ok (.nullB (len + 1)) ∧
    builder_extend (.nullB len) (.nullA m) idx .null = .ok (.nullB (len + idx.length)) :=
  ⟨rfl, rfl, rfl, rfl⟩

end Claims

end BlazeArrayBuilder
